import Mathlib

/-!
Verification development for the `apictx` pipeline
(src/apictx/extract.py, src/apictx/pipeline.py, src/apictx/models.py,
src/apictx/errors.py).

The Python sources are shallowly embedded: pure functions become Lean
functions, CPython string primitives are re-implemented over `List Char`
(so that every definition evaluates by kernel reduction), sets are
modelled as lists used only through membership, dictionaries as
association lists with last-write-wins lookup, and the one statement in
the sources that can raise an unhandled exception (an `IndexError` in
`_parse_docstring_raises`) is modelled with `Option`, `none` standing
for the escaping exception.
-/

namespace Apictx

/-! Python string primitives, re-implemented over `List Char`.
`str.lower` is modelled with `Char.toLower` (ASCII case folding), and
whitespace with `Char.isWhitespace`; both match CPython on the ASCII
inputs the pipeline manipulates. -/

/-- Python `s.lower()`. -/
def pyLower (s : String) : String :=
  String.mk (s.data.map Char.toLower)

/-- Python `s.startswith(p)`. -/
def pyStartsWith (s p : String) : Bool :=
  p.data.isPrefixOf s.data

/-- Python `s.endswith(p)`. -/
def pyEndsWith (s p : String) : Bool :=
  p.data.isSuffixOf s.data

/-- Python `needle in hay` (substring containment). -/
def pyIn (needle hay : String) : Bool :=
  hay.data.tails.any (fun t => needle.data.isPrefixOf t)

/-- Python `c in s` for a single character. -/
def pyContainsChar (s : String) (c : Char) : Bool :=
  s.data.contains c

/-- Python `s.strip()` (strip whitespace from both ends). -/
def pyStrip (s : String) : String :=
  String.mk (((s.data.dropWhile Char.isWhitespace).reverse.dropWhile Char.isWhitespace).reverse)

/-- Python `s.rstrip()`. -/
def pyRstrip (s : String) : String :=
  String.mk ((s.data.reverse.dropWhile Char.isWhitespace).reverse)

/-- Python `s.lstrip("- ")`: strip leading dash and space characters. -/
def pyLstripDashSpace (s : String) : String :=
  String.mk (s.data.dropWhile (fun c => c = '-' ∨ c = ' '))

/-- Helper for `pySplitOn`: fuel-driven scan so that the recursion is
structural and kernel-reducible.  `fuel` is always at least the length
of the remaining input plus one. -/
def pySplitOnAux (sep : List Char) : Nat → List Char → List Char → List (List Char)
  | _, acc, [] => [acc.reverse]
  | 0, acc, rest => [acc.reverse ++ rest]
  | Nat.succ n, acc, c :: cs =>
    if sep.isPrefixOf (c :: cs) then
      acc.reverse :: pySplitOnAux sep n [] (cs.drop (sep.length - 1))
    else
      pySplitOnAux sep n (c :: acc) cs

/-- Python `s.split(sep)` for a non-empty separator `sep`. -/
def pySplitOn (s sep : String) : List String :=
  if sep = "" then [s]
  else (pySplitOnAux sep.data (s.data.length + 1) [] s.data).map String.mk

/-- Python `"\n".join`-style join with a dot, used for `".".join(parts)`. -/
def joinDots : List String → String
  | [] => ""
  | [x] => x
  | x :: xs => x ++ "." ++ joinDots xs

/-- Python `s.splitlines()` (modelled for `\n`-separated text): like
splitting on newline but without a trailing empty line. -/
def pySplitlines (s : String) : List String :=
  if s = "" then []
  else
    let parts := pySplitOn s "\n"
    if pyEndsWith s "\n" then parts.dropLast else parts

/-- Helper for `pyWords`: accumulate the current word (reversed). -/
def pyWordsAux : List Char → List Char → List String
  | acc, [] => if acc = [] then [] else [String.mk acc.reverse]
  | acc, c :: cs =>
    if c.isWhitespace then
      if acc = [] then pyWordsAux [] cs
      else String.mk acc.reverse :: pyWordsAux [] cs
    else pyWordsAux (c :: acc) cs

/-- Python `s.split()`: split on whitespace runs, dropping empty pieces. -/
def pyWords (s : String) : List String :=
  pyWordsAux [] s.data

/-- Python `s.split(":", 1)[0]`: the text before the first colon. -/
def beforeColon (s : String) : String :=
  String.mk (s.data.takeWhile (fun c => c ≠ ':'))

/-- Python `s.split(".")[-1]`: the last dot-separated segment. -/
def lastSeg (s : String) : String :=
  (pySplitOn s ".").getLastD s

/-- Python `s.rsplit(".", 1)[0]`: everything before the last dot, or the
whole string when it has no dot. -/
def dropLastSeg (s : String) : String :=
  let parts := pySplitOn s "."
  if parts.length ≤ 1 then s else joinDots parts.dropLast

/-- Lexicographic comparison of character lists by code point; this is
CPython's `str` ordering. -/
def lexLe : List Char → List Char → Bool
  | [], _ => true
  | _ :: _, [] => false
  | a :: as, b :: bs =>
    if a < b then true else if b < a then false else lexLe as bs

/-- Python `s <= t` on strings. -/
def strLe (a b : String) : Bool :=
  lexLe a.data b.data

/-- Order-preserving deduplication keeping first occurrences, Python's
`dict.fromkeys` idiom (and a membership-faithful model of `set`). -/
def dedupFirst (seen : List String) : List String → List String
  | [] => []
  | x :: xs =>
    if seen.contains x then dedupFirst seen xs
    else x :: dedupFirst (x :: seen) xs

/-- Sequence a fallible computation over a list (the loop bodies of
`extract_module` and `run_pipeline`, which stop at the first raised
exception): `none` as soon as one element fails. -/
def optionMapM (f : α → Option β) : List α → Option (List β)
  | [] => some []
  | a :: l =>
    match f a with
    | none => none
    | some b => (optionMapM f l).map (fun r => b :: r)

/-- Python `str(x)` where `x` is an optional string (`None` prints as
`"None"`), as used by the query post-filters. -/
def pyStr (o : Option String) : String :=
  match o with
  | some s => s
  | none => "None"

/-- Last-write-wins association-list lookup: the model of reading a
Python `dict` built by successive assignments. -/
def assocGet (d : List (String × String)) (k : String) : Option String :=
  d.foldl (fun acc p => if p.1 = k then some p.2 else acc) none

/-- Lookup in the outer table map (module FQN to alias table), again
last-write-wins. -/
def tablesGet (tables : List (String × List (String × String))) (k : String) :
    Option (List (String × String)) :=
  tables.foldl (fun acc p => if p.1 = k then some p.2 else acc) none

/-! Basic facts about the string order. -/

theorem lexLe_refl (a : List Char) : lexLe a a = true := by
  induction a with
  | nil => rfl
  | cons c cs ih => simp [lexLe, lt_irrefl, ih]

theorem lexLe_total (a b : List Char) : lexLe a b = true ∨ lexLe b a = true := by
  induction a generalizing b with
  | nil => exact Or.inl rfl
  | cons c cs ih =>
    cases b with
    | nil => exact Or.inr rfl
    | cons d ds =>
      rcases lt_trichotomy c d with h | h | h
      · left; simp [lexLe, h]
      · subst h
        rcases ih ds with h2 | h2
        · left; simp [lexLe, lt_irrefl, h2]
        · right; simp [lexLe, lt_irrefl, h2]
      · right; simp [lexLe, h]

theorem lexLe_trans (a b c : List Char) (hab : lexLe a b = true)
    (hbc : lexLe b c = true) : lexLe a c = true := by
  induction a generalizing b c with
  | nil => rfl
  | cons x xs ih =>
    cases b with
    | nil => simp [lexLe] at hab
    | cons y ys =>
      cases c with
      | nil => simp [lexLe] at hbc
      | cons z zs =>
        simp only [lexLe] at hab hbc ⊢
        by_cases h1 : x < y
        · by_cases h2 : y < z
          · simp [lt_trans h1 h2]
          · by_cases h3 : z < y
            · simp [h2, h3] at hbc
            · have hyz : y = z := le_antisymm (not_lt.mp h3) (not_lt.mp h2)
              subst hyz
              simp [h1]
        · by_cases h1' : y < x
          · simp [h1, h1'] at hab
          · have hxy : x = y := le_antisymm (not_lt.mp h1') (not_lt.mp h1)
            subst hxy
            simp only [lt_irrefl, if_false] at hab
            by_cases h2 : x < z
            · simp [h2]
            · by_cases h3 : z < x
              · simp [h2, h3] at hbc
              · have hxz : x = z := le_antisymm (not_lt.mp h3) (not_lt.mp h2)
                subst hxz
                simp only [lt_irrefl, if_false] at hbc ⊢
                exact ih _ _ hab hbc

theorem lexLe_antisymm (a b : List Char) (hab : lexLe a b = true)
    (hba : lexLe b a = true) : a = b := by
  induction a generalizing b with
  | nil =>
    cases b with
    | nil => rfl
    | cons y ys => simp [lexLe] at hba
  | cons x xs ih =>
    cases b with
    | nil => simp [lexLe] at hab
    | cons y ys =>
      simp only [lexLe] at hab hba
      rcases lt_trichotomy x y with h | h | h
      · simp [h, asymm h] at hba
      · subst h
        simp [lt_irrefl] at hab hba
        exact congrArg (x :: ·) (ih _ hab hba)
      · simp [h, asymm h] at hab

theorem strLe_total (a b : String) : strLe a b = true ∨ strLe b a = true :=
  lexLe_total a.data b.data

theorem strLe_trans (a b c : String) (hab : strLe a b = true)
    (hbc : strLe b c = true) : strLe a c = true :=
  lexLe_trans a.data b.data c.data hab hbc

theorem strLe_antisymm (a b : String) (hab : strLe a b = true)
    (hba : strLe b a = true) : a = b := by
  cases a with
  | mk da =>
    cases b with
    | mk db => exact congrArg String.mk (lexLe_antisymm da db hab hba)

/-! Data model, from src/apictx/models.py.  `kind` is implicit in the
constructor; visibility keeps the literal strings used by the source. -/

/-- Location of a symbol (models.py `Location`). -/
structure Location where
  path : String
  line : Nat
  column : Nat
deriving DecidableEq, Repr

/-- Function parameter (models.py `Parameter`). -/
structure Parameter where
  name : String
  type : String
  kind : String
  default : Option String
  required : Bool
deriving DecidableEq, Repr

/-- The symbol sum type (models.py `ModuleSymbol`, `FunctionSymbol`,
`ClassSymbol`, `ConstantSymbol`, `TypeAliasSymbol`). -/
inductive Sym where
  | moduleS (fqn : String) (location : Location) (docstring : Option String)
  | functionS (fqn : String) (location : Location) (parameters : List Parameter)
      (returns : Option String) (docstring : Option String) (decorators : List String)
      (visibility : String) (deprecated : Bool) (isAsync : Bool) (owner : Option String)
      (isClassmethod : Bool) (isStaticmethod : Bool) (isProperty : Bool)
      (raises : List String) (overloadOf : Option String)
  | classS (fqn : String) (location : Location) (docstring : Option String)
      (decorators : List String) (visibility : String) (deprecated : Bool)
      (bases : List String) (baseFqns : List String)
      (isException : Bool) (isEnum : Bool) (isProtocol : Bool)
  | constantS (fqn : String) (location : Location) (owner : String)
      (type : Option String) (value : Option String) (visibility : String)
      (deprecated : Bool)
  | typeAliasS (fqn : String) (location : Location) (target : String)
deriving DecidableEq, Repr

/-- The `fqn` field common to all symbol variants. -/
def Sym.fqn : Sym → String
  | .moduleS f _ _ => f
  | .functionS f _ _ _ _ _ _ _ _ _ _ _ _ _ _ => f
  | .classS f _ _ _ _ _ _ _ _ _ _ => f
  | .constantS f _ _ _ _ _ _ => f
  | .typeAliasS f _ _ => f

/-- The `kind` discriminator string of a symbol. -/
def Sym.kind : Sym → String
  | .moduleS .. => "module"
  | .functionS .. => "function"
  | .classS .. => "class"
  | .constantS .. => "constant"
  | .typeAliasS .. => "type_alias"

/-- The `visibility` field where present (`obj.get("visibility")`). -/
def Sym.visibilityOpt : Sym → Option String
  | .functionS _ _ _ _ _ _ v _ _ _ _ _ _ _ _ => some v
  | .classS _ _ _ _ v _ _ _ _ _ _ => some v
  | .constantS _ _ _ _ _ v _ => some v
  | _ => none

/-- The `owner` field where present (`obj.get("owner")`). -/
def Sym.ownerOpt : Sym → Option String
  | .functionS _ _ _ _ _ _ _ _ _ o _ _ _ _ _ => o
  | .constantS _ _ o _ _ _ _ => some o
  | _ => none

/-! Concrete-syntax-tree model: the fragment of the libcst node interface
that extract.py and pipeline.py consume.  Source text of sub-expressions
(`Module([]).code_for_node(...)`) is carried directly on the nodes as
strings, which models the external CST printer.  Each node carries the
position that the libcst `PositionProvider` metadata would report. -/

/-- Start position of a node (libcst metadata). -/
structure NodePos where
  line : Nat
  column : Nat
deriving DecidableEq, Repr

/-- An element of a literal list or tuple, as far as `_collect_exports`
inspects it: either a `SimpleString` (with its raw quoted text, which is
what `SimpleString.value` holds) or anything else. -/
inductive AtomExpr where
  | simpleStringA (value : String)
  | otherA (code : String)
deriving DecidableEq, Repr

/-- An assignment right-hand side, as far as the extractor inspects it. -/
inductive Expr where
  | listE (elements : List AtomExpr) (code : String)
  | tupleE (elements : List AtomExpr) (code : String)
  | simpleStringE (value : String)
  | otherE (code : String)
deriving DecidableEq, Repr

/-- Source text of an expression node (the external `code_for_node`). -/
def Expr.code : Expr → String
  | .listE _ c => c
  | .tupleE _ c => c
  | .simpleStringE v => v
  | .otherE c => c

/-- An assignment target: a plain `Name` or anything else. -/
inductive AssignTarget where
  | nameT (value : String)
  | otherT (code : String)
deriving DecidableEq, Repr

/-- One alias of an `import`/`from-import` statement: the dotted name's
source text and the optional `as` name. -/
structure ImportAlias where
  name : String
  asname : Option String
deriving DecidableEq, Repr

/-- Small statements inside a `SimpleStatementLine`. -/
inductive SmallStmt where
  | assignSS (targets : List AssignTarget) (value : Expr) (pos : NodePos)
  | annAssignSS (target : AssignTarget) (annot : String) (value : Option Expr)
      (pos : NodePos)
  | exprSS (value : Expr)
  | importSS (names : List ImportAlias)
  | importFromSS (relative : Nat) (modName : Option String) (names : List ImportAlias)
  | otherSS
deriving DecidableEq, Repr

/-- A `cst.Param`: name, optional annotation text, optional default text. -/
structure ParamNode where
  name : String
  annot : Option String
  default : Option String
deriving DecidableEq, Repr

/-- The `cst.Parameters` groups consumed by `_iter_parameters`. -/
structure ParamsNode where
  posonlyParams : List ParamNode
  params : List ParamNode
  kwonlyParams : List ParamNode
  starArg : Option ParamNode
  starKwarg : Option ParamNode
deriving DecidableEq, Repr

/-- Compound statements.  Function and class bodies are statement lists;
decorators and base-class expressions are carried as their source text. -/
inductive Stmt where
  | functionDefS (name : String) (params : ParamsNode) (returns : Option String)
      (decorators : List String) (asynchronous : Bool) (body : List Stmt) (pos : NodePos)
  | classDefS (name : String) (bases : List String) (decorators : List String)
      (body : List Stmt) (pos : NodePos)
  | simpleLineS (body : List SmallStmt) (pos : NodePos)
  | typeAliasStmtS (name : String) (value : String) (pos : NodePos)
  | otherStmtS
deriving Repr

/-- A parsed module: its statement list and the module node's position. -/
structure PyModule where
  body : List Stmt
  pos : NodePos
deriving Repr

/-! Embedding of src/apictx/extract.py. -/

/-- extract.py `_determine_visibility`. -/
def determineVisibility (name : String) (exported : Option (List String)) : String :=
  match exported with
  | some ex => if ex.contains name then "public" else "private"
  | none => if pyStartsWith name "_" then "private" else "public"

/-- extract.py `_parameter_from_node`. -/
def parameterFromNode (p : ParamNode) (kind : String) : Parameter :=
  { name := p.name
    type := p.annot.getD ""
    kind := kind
    default := p.default
    required := (kind == "posonly" || kind == "pos" || kind == "kwonly") && p.default.isNone }

/-- extract.py `_iter_parameters`: the five parameter groups in order. -/
def iterParameters (ps : ParamsNode) : List (ParamNode × String) :=
  ps.posonlyParams.map (fun p => (p, "posonly"))
    ++ ps.params.map (fun p => (p, "pos"))
    ++ ps.kwonlyParams.map (fun p => (p, "kwonly"))
    ++ (match ps.starArg with | some p => [(p, "vararg")] | none => [])
    ++ (match ps.starKwarg with | some p => [(p, "kwvar")] | none => [])

/-- The header test of `_parse_docstring_raises`:
`ln.strip().lower().startswith("raises:"/"raise:")`. -/
def isRaisesHeader (ln : String) : Bool :=
  pyStartsWith (pyLower (pyStrip ln)) "raises:" || pyStartsWith (pyLower (pyStrip ln)) "raise:"

/-- The two nested `while` loops of `_parse_docstring_raises`, as a
recursion over the remaining lines.  The mode flag is true inside a
raises section.  When the inner loop breaks on a bare `word:` header
line, the outer loop re-examines that same line; that re-examination is
inlined here (the line is consumed either as a fresh raises header or as
an ordinary outer-loop line), keeping the recursion structural.
`none` models the `IndexError` that `text.split(":", 1)[0].split()[0]`
raises when the bullet-stripped text has no token before the colon. -/
def scanRaises : Bool → List String → Option (List String)
  | _, [] => some []
  | false, l :: rest =>
    if isRaisesHeader l then scanRaises true rest else scanRaises false rest
  | true, l :: rest =>
    let stripped := pyStrip l
    if stripped = "" then scanRaises true rest
    else if pyEndsWith stripped ":" && !(pyContainsChar stripped ' ') then
      if isRaisesHeader l then scanRaises true rest else scanRaises false rest
    else
      match pyWords (beforeColon (pyLstripDashSpace stripped)) with
      | [] => none
      | name :: _ =>
        (fun ns => if name ≠ "" then name :: ns else ns) <$> scanRaises true rest

/-- extract.py `_parse_docstring_raises`. -/
def parseDocstringRaises (doc : Option String) : Option (List String) :=
  match doc with
  | none => some []
  | some d =>
    if d = "" then some []
    else (dedupFirst []) <$> scanRaises false ((pySplitlines d).map pyRstrip)

/-- Python `d.split("(")[0]`, used by the decorator classification. -/
def decoSplitHead (d : String) : String :=
  (pySplitOn d "(").headD ""

/-- Model of libcst string-literal evaluation (`get_docstring` returns
the cooked text): strip one pair of matching triple or single quotes. -/
def cookString (raw : String) : String :=
  let cs := raw.data
  if 6 ≤ cs.length
      ∧ (pyStartsWith raw "\"\"\"" ∧ pyEndsWith raw "\"\"\""
          ∨ pyStartsWith raw "'''" ∧ pyEndsWith raw "'''") then
    String.mk ((cs.drop 3).take (cs.length - 6))
  else if 2 ≤ cs.length ∧ cs.headD ' ' = cs.getLastD ' '
      ∧ (cs.headD ' ' = '"' ∨ cs.headD ' ' = '\'') then
    String.mk ((cs.drop 1).take (cs.length - 2))
  else raw

/-- Model of libcst `get_docstring` on a statement list: the leading
statement's expression-statement string literal, if any. -/
def getDocstring : List Stmt → Option String
  | .simpleLineS (.exprSS (.simpleStringE v) :: _) _ :: _ => some (cookString v)
  | _ => none

/-- extract.py `_function_from_def`.  Returns `none` when
`_parse_docstring_raises` raises. -/
def functionFromDef (name : String) (params : ParamsNode) (returns : Option String)
    (decorators : List String) (asynchronous : Bool) (body : List Stmt) (pos : NodePos)
    (parentFqn : Option String) (moduleFqn : String) (exported : Option (List String))
    (pathStr : String) : Option Sym :=
  let owner := parentFqn
  let baseFqn := match owner with
    | none => moduleFqn ++ "." ++ name
    | some o => o ++ "." ++ name
  let ps := (iterParameters params).map (fun pk => parameterFromNode pk.1 pk.2)
  let doc := getDocstring body
  let visibility := determineVisibility name
    (match owner with | some _ => none | none => exported)
  let deprecated := decorators.any (fun d => pyIn "deprecated" d)
  let isProp := decorators.any (fun d => pyEndsWith (decoSplitHead d) "property")
  let isCm := decorators.any (fun d => pyEndsWith (decoSplitHead d) "classmethod")
  let isSm := decorators.any (fun d => pyEndsWith (decoSplitHead d) "staticmethod")
  let isAsync := asynchronous
  let overloadOf := if decorators.any (fun d => pyEndsWith (decoSplitHead d) "overload")
    then some baseFqn else none
  match parseDocstringRaises doc with
  | none => none
  | some raises =>
    some (.functionS baseFqn ⟨pathStr, pos.line, pos.column⟩ ps returns doc decorators
      visibility deprecated isAsync owner isCm isSm isProp raises overloadOf)

/-- extract.py `_is_exception_class`. -/
def isExceptionClass (bases : List String) : Bool :=
  let lowered := bases.map pyLower
  lowered.any (fun b => pyIn "exception" b || pyEndsWith b "baseexception")

/-- extract.py `_is_enum_class`. -/
def isEnumClass (bases : List String) : Bool :=
  let lowered := bases.map pyLower
  lowered.any (fun b => pyEndsWith b "enum.enum" || pyEndsWith b "enum")

/-- extract.py `_is_protocol_class`. -/
def isProtocolClass (bases : List String) : Bool :=
  let lowered := bases.map pyLower
  lowered.any (fun b => pyEndsWith b "typing.protocol" || pyEndsWith b "protocol")

/-- extract.py `_constant_from_assign`. -/
def constantFromAssign (name ownerFqn : String) (typeStr valueStr : Option String)
    (visibility : String) (pos : NodePos) (pathStr : String) : Sym :=
  .constantS (ownerFqn ++ "." ++ name) ⟨pathStr, pos.line, pos.column⟩ ownerFqn
    typeStr valueStr visibility false

/-- The quote-stripping in `_collect_exports`:
`text[1:-1]` when `text` is wrapped in a matching quote pair. -/
def exportNameOfAtom : AtomExpr → Option String
  | .simpleStringA v =>
    let cs := v.data
    if 2 ≤ cs.length ∧ (cs.headD ' ' = '"' ∨ cs.headD ' ' = '\'')
        ∧ cs.getLastD ' ' = cs.headD ' ' then
      some (String.mk ((cs.drop 1).take (cs.length - 2)))
    else none
  | .otherA _ => none

/-- The export names contributed by one `__all__` right-hand side:
`some` iff the value is a literal list or tuple (which also sets the
`found` flag), collecting its `SimpleString` elements. -/
def exportNamesOfExpr : Expr → Option (List String)
  | .listE els _ => some (els.filterMap exportNameOfAtom)
  | .tupleE els _ => some (els.filterMap exportNameOfAtom)
  | _ => none

/-- One step of `_collect_exports` over a module-body statement. -/
def exportsStep (st : List String × Bool) (stmt : Stmt) : List String × Bool :=
  match stmt with
  | .simpleLineS smalls _ =>
    smalls.foldl (fun st2 small =>
      match small with
      | .assignSS targets value _ =>
        if targets.any (fun t => t = AssignTarget.nameT "__all__") then
          match exportNamesOfExpr value with
          | some names => (st2.1 ++ names, true)
          | none => st2
        else st2
      | _ => st2) st
  | _ => st

/-- extract.py `extract_module._collect_exports`: scan the module body
for `__all__ = [...]`-style assignments.  The Python `set` of exported
names is modelled as a list used only through membership. -/
def collectExports (m : PyModule) : Option (List String) :=
  let r := m.body.foldl exportsStep ([], false)
  if r.2 then some r.1 else none

/-- extract.py `extract_module.handle_simple_stmt` for a single small
statement: constants and PEP-613 type aliases. -/
def handleSmall (small : SmallStmt) (ownerFqn moduleFqn : String)
    (exported : Option (List String)) (pathStr : String) : List Sym :=
  match small with
  | .annAssignSS (.nameT name) annStr value pos =>
    if lastSeg annStr = "TypeAlias" ∧ value.isSome then
      match value with
      | some v => [.typeAliasS (ownerFqn ++ "." ++ name) ⟨pathStr, pos.line, pos.column⟩ v.code]
      | none => []
    else
      let vis := determineVisibility name (if ownerFqn = moduleFqn then exported else none)
      [constantFromAssign name ownerFqn (some annStr) (value.map Expr.code) vis pos pathStr]
  | .assignSS [.nameT name] value pos =>
    let vis := determineVisibility name (if ownerFqn = moduleFqn then exported else none)
    [constantFromAssign name ownerFqn none (some value.code) vis pos pathStr]
  | _ => []

/-- The class-body member loop of `extract_module`: only function
definitions and simple statement lines contribute symbols. -/
def classMember (cstmt : Stmt) (clsFqn moduleFqn : String)
    (exported : Option (List String)) (pathStr : String) : Option (List Sym) :=
  match cstmt with
  | .functionDefS n p r d a b pos =>
    (functionFromDef n p r d a b pos (some clsFqn) moduleFqn exported pathStr).map
      (fun s => [s])
  | .simpleLineS smalls _ =>
    some ((smalls.map (fun sm => handleSmall sm clsFqn moduleFqn exported pathStr)).flatten)
  | _ => some []

/-- The module-body statement loop of `extract_module`: the symbols
contributed by one top-level statement. -/
def extractTop (stmt : Stmt) (moduleFqn : String) (exported : Option (List String))
    (pathStr : String) : Option (List Sym) :=
  match stmt with
  | .functionDefS n p r d a b pos =>
    (functionFromDef n p r d a b pos none moduleFqn exported pathStr).map (fun s => [s])
  | .classDefS name bases decorators body pos =>
    let clsFqn := moduleFqn ++ "." ++ name
    let cls : Sym := .classS clsFqn ⟨pathStr, pos.line, pos.column⟩ (getDocstring body)
      decorators (determineVisibility name none)
      (decorators.any (fun d => pyIn "deprecated" d)) bases []
      (isExceptionClass bases) (isEnumClass bases) (isProtocolClass bases)
    (optionMapM (fun c => classMember c clsFqn moduleFqn exported pathStr) body).map
      (fun ms => cls :: ms.flatten)
  | .simpleLineS smalls _ =>
    some ((smalls.map (fun sm => handleSmall sm moduleFqn moduleFqn exported pathStr)).flatten)
  | .typeAliasStmtS name value pos =>
    some [.typeAliasS (moduleFqn ++ "." ++ name) ⟨pathStr, pos.line, pos.column⟩ value]
  | .otherStmtS => some []

/-- The `sorted(out, key=lambda s: s.fqn)` at the end of
`extract_module` (and of pipeline `extract`): a stable sort by FQN. -/
def sortByFqn (l : List Sym) : List Sym :=
  List.insertionSort (fun a b => strLe a.fqn b.fqn = true) l

/-- extract.py `extract_module`.  Returns `none` when the extraction
raises (the docstring-raises `IndexError`). -/
def extractModule (m : PyModule) (moduleFqn : String) (modulePath : Option String) :
    Option (List Sym) :=
  let pathStr := modulePath.getD moduleFqn
  let modSymbol : Sym := .moduleS moduleFqn ⟨pathStr, m.pos.line, m.pos.column⟩
    (getDocstring m.body)
  let exported := collectExports m
  (optionMapM (fun st => extractTop st moduleFqn exported pathStr) m.body).map
    (fun frs => sortByFqn (modSymbol :: frs.flatten))

/-! Embedding of src/apictx/pipeline.py (and src/apictx/errors.py). -/

/-- errors.py `Error`. -/
structure Error where
  code : String
  message : String
  path : String
deriving DecidableEq, Repr

/-- pipeline.py `_module_fqn_for`: `".".join((package, *parts))`. -/
def moduleFqnFor (pkg : String) (relParts : List String) : String :=
  joinDots (pkg :: relParts)

/-- The per-module alias table built by `build_import_tables`.  Python
`dict` writes are modelled by appending, reads by `assocGet`
(last-write-wins). -/
def importTableFor (modFqn : String) (m : PyModule) : List (String × String) :=
  m.body.foldl (fun table stmt =>
    match stmt with
    | .simpleLineS smalls _ =>
      smalls.foldl (fun table2 small =>
        match small with
        | .importSS names =>
          names.foldl (fun t al =>
            let full := al.name
            let asname := match al.asname with
              | some a => a
              | none => lastSeg full
            t ++ [(asname, full)]) table2
        | .importFromSS rel modName names =>
          let pkgParts0 := (pySplitOn modFqn ".").dropLast
          let pkgParts := if 0 < rel then
              pkgParts0.take (pkgParts0.length - (rel - 1))
            else pkgParts0
          let baseModule := match modName with
            | some modPart => joinDots (pkgParts ++ pySplitOn modPart ".")
            | none => joinDots pkgParts
          names.foldl (fun t al =>
            let name := al.name
            let target := if baseModule ≠ "" then baseModule ++ "." ++ name else name
            let localName := al.asname.getD name
            t ++ [(localName, target)]) table2
        | _ => table2) table
    | _ => table) []

/-- pipeline.py `build_import_tables` over the parsed modules (pairs of
module FQN and tree, in file order). -/
def buildImportTables (mods : List (String × PyModule)) :
    List (String × List (String × String)) :=
  mods.map (fun f => (f.1, importTableFor f.1 f.2))

/-- Whether a symbol is a class symbol (`isinstance(s, ClassSymbol)`). -/
def Sym.isClassSym : Sym → Bool
  | .classS .. => true
  | _ => false

/-- pipeline.py `link._resolve_base`: resolve one raw base expression in
the context of a module.  `classFqns` is the set of known class FQNs and
`nameToFqns` the global simple-name index; `aliasMap` is the current
module's alias table. -/
def resolveBase (classFqns : List String) (nameToFqns : String → List String)
    (aliasMap : List (String × String)) (baseTxt : String) (currentMod : String) :
    Option String :=
  let txt := pyStrip baseTxt
  let hd := (pySplitOn txt "[").headD ""
  let parts := if hd = "" then [] else pySplitOn hd "."
  match parts with
  | [] => none
  | first :: rest =>
    if rest ≠ [] then
      match assocGet aliasMap first with
      | some target =>
        if target ≠ "" then
          let candidate := joinDots (target :: rest)
          if classFqns.contains candidate then some candidate else none
        else if classFqns.contains hd then some hd else none
      | none => if classFqns.contains hd then some hd else none
    else
      let simple := first
      let sameModCandidate := currentMod ++ "." ++ simple
      if classFqns.contains sameModCandidate then some sameModCandidate
      else
        let viaAlias := match assocGet aliasMap simple with
          | some target => if target ≠ "" ∧ classFqns.contains target then some target else none
          | none => none
        match viaAlias with
        | some t => some t
        | none =>
          match nameToFqns simple with
          | [] => none
          | m :: _ => some m

/-- Sort a list of strings by the Python string order. -/
def sortStrings (l : List String) : List String :=
  List.insertionSort (fun a b => strLe a b = true) l

/-- The global simple-name index of `link`: sorted FQNs of all symbols
whose final dotted segment is the given name (`name_to_fqns`, with the
empty list as the `.get(simple, ())` default). -/
def nameToFqnsOf (symbols : List Sym) (name : String) : List String :=
  sortStrings (symbols.filterMap (fun s =>
    if lastSeg s.fqn = name then some s.fqn else none))

/-- pipeline.py `link`. -/
def link (symbols : List Sym) (importTables : List (String × List (String × String))) :
    List Sym :=
  let classFqns : List String := symbols.filterMap (fun s =>
    if s.isClassSym then some s.fqn else none)
  let nameToFqns := nameToFqnsOf symbols
  symbols.map (fun s =>
    match s with
    | .classS fqn loc doc decos vis dep bases _ exc enum proto =>
      let currentMod := dropLastSeg fqn
      let aliasMap := (tablesGet importTables currentMod).getD []
      let resolved := bases.filterMap (fun b =>
        match resolveBase classFqns nameToFqns aliasMap b currentMod with
        | some cand => if cand ≠ "" then some cand else none
        | none => none)
      .classS fqn loc doc decos vis dep bases
        (sortStrings (dedupFirst [] resolved)) exc enum proto
    | s => s)

/-- pipeline.py `ValidationReport`. -/
structure ValidationReport where
  symbolCount : Nat
  missingReferences : Nat
deriving DecidableEq, Repr

/-- pipeline.py `ValidationOutput`.  The JSON object form of a symbol
(`asdict` plus a `json` round-trip) is modelled by the symbol itself. -/
structure ValidationOutput where
  objects : List Sym
  report : ValidationReport
deriving DecidableEq, Repr

/-- The `duplicate` error for a symbol. -/
def dupError (s : Sym) : Error :=
  ⟨"duplicate", "duplicate fqn", s.fqn⟩

/-- The `schema` error for a symbol.  The message of the real error is
the exception text of the external jsonschema library; a fixed message
stands in for it. -/
def schemaError (s : Sym) : Error :=
  ⟨"schema", "schema validation failed", s.fqn⟩

/-- The `missing_ref` errors contributed by one symbol's owner and base
references (`validate`'s reference-closure checks). -/
def refErrors (fqnSet : List String) (s : Sym) : List Error :=
  match s with
  | .functionS _ _ _ _ _ _ _ _ _ owner _ _ _ _ _ =>
    match owner with
    | some o =>
      if fqnSet.contains o then []
      else [⟨"missing_ref", "owner not found", s.fqn ++ " -> " ++ o⟩]
    | none => []
  | .constantS _ _ owner _ _ _ _ =>
    if fqnSet.contains owner then []
    else [⟨"missing_ref", "owner not found", s.fqn ++ " -> " ++ owner⟩]
  | .classS _ _ _ _ _ _ _ baseFqns _ _ _ =>
    baseFqns.filterMap (fun b =>
      if fqnSet.contains b then none
      else some ⟨"missing_ref", "base not found", s.fqn ++ " -> " ++ b⟩)
  | _ => []

/-- The per-symbol loop of `validate`: objects kept, errors, and the
`missing_references` counter, accumulated over the remaining symbols
given the set of already-seen FQNs.  `schemaOk` is the external
jsonschema validator (`jsonschema.validate` against the packaged schema
document, which is outside the sources). -/
def validateGo (schemaOk : Sym → Bool) (fqnSet : List String) :
    List Sym → List String → List Sym × List Error × Nat
  | [], _ => ([], [], 0)
  | s :: rest, seen =>
    if seen.contains s.fqn then
      let r := validateGo schemaOk fqnSet rest seen
      (r.1, dupError s :: r.2.1, r.2.2)
    else
      let schemaErrs := if schemaOk s then [] else [schemaError s]
      let objPart := if schemaOk s then [s] else []
      let refs := refErrors fqnSet s
      let r := validateGo schemaOk fqnSet rest (s.fqn :: seen)
      (objPart ++ r.1, schemaErrs ++ refs ++ r.2.1, refs.length + r.2.2)

/-- pipeline.py `validate`. -/
def validate (schemaOk : Sym → Bool) (symbols : List Sym) :
    Except (List Error) ValidationOutput :=
  let fqnSet := symbols.map Sym.fqn
  let r := validateGo schemaOk fqnSet symbols []
  if r.2.1 ≠ [] then .error r.2.1
  else .ok ⟨r.1, ⟨r.1.length, r.2.2⟩⟩

/-- The padded character sequence `"^" + text.lower() + "$"` of
`_to_grams`. -/
def gramsChars (text : String) : List Char :=
  '^' :: (text.data.map Char.toLower) ++ ['$']

/-- pipeline.py `_to_grams` (with the default `n = 3`): the set of all
length-3 contiguous substrings of the padded lowercased text, as a
deduplicated list. -/
def toGrams (text : String) : List String :=
  let s := gramsChars text
  dedupFirst [] ((List.range (s.length - 2)).map (fun i => String.mk ((s.drop i).take 3)))

/-- One row of the sqlite `symbols` table plus its `grams` postings, as
written by `index` (grams are `set(_to_grams(name)) | set(_to_grams(fqn))`,
inserted in sorted order). -/
structure StoreRow where
  fqn : String
  name : String
  kind : String
  data : Sym
  grams : List String
deriving DecidableEq, Repr

/-- The row `index` writes for one validated object. -/
def storeRowFor (obj : Sym) : StoreRow :=
  let fqn := obj.fqn
  let name := pyLower (lastSeg fqn)
  ⟨fqn, name, obj.kind, obj, sortStrings (dedupFirst [] (toGrams name ++ toGrams fqn))⟩

/-- pipeline.py `index`, modelled as the store contents it commits.  The
validated objects have pairwise-distinct FQNs, so every upsert inserts a
fresh row. -/
def buildStore (objs : List Sym) : List StoreRow :=
  objs.map storeRowFor

/-- Python truthiness of an optional string argument (`if fqn:`). -/
def truthy (o : Option String) : Bool :=
  match o with
  | some s => s ≠ ""
  | none => false

/-- The `kind`/`visibility`/`owner` post-filters of `query_index`
(`str(obj.get(...)) != str(filter)` comparisons; a missing key prints as
`"None"`). -/
def passesFilters (kindF visF ownerF : Option String) (o : Sym) : Bool :=
  (match kindF with | none => true | some k => o.kind = k)
  && (match visF with | none => true | some v => pyStr o.visibilityOpt = v)
  && (match ownerF with | none => true | some w => pyStr o.ownerOpt = w)

/-- The result-collection loop of `query_index`: keep objects that pass
every filter, stopping once `limit` results are collected (the length
test runs after each append). -/
def postFilterGo (kindF visF ownerF : Option String) (limit : Int) :
    List Sym → List Sym → List Sym
  | [], acc => acc.reverse
  | o :: rest, acc =>
    if passesFilters kindF visF ownerF o then
      let acc2 := o :: acc
      if limit ≤ (acc2.length : Int) then acc2.reverse
      else postFilterGo kindF visF ownerF limit rest acc2
    else postFilterGo kindF visF ownerF limit rest acc

/-- The approximate-query candidate rows: score every stored symbol by
its count of matching grams (the SQL join keeps only symbols with at
least one match), order by descending score then ascending FQN, and keep
the over-provisioned pool of `max(50, limit * 5)` rows. -/
def approxRows (store : List StoreRow) (approx : String) (limit : Int) : List Sym :=
  let grams := toGrams approx
  if grams = [] then []
  else
    let pool : Int := max 50 (limit * 5)
    let scored := store.filterMap (fun r =>
      let sc := (r.grams.filter (fun g => grams.contains g)).length
      if 0 < sc then some (r, sc) else none)
    let ordered := List.insertionSort
      (fun a b : StoreRow × Nat => b.2 < a.2 ∨ (a.2 = b.2 ∧ strLe a.1.fqn b.1.fqn = true))
      scored
    (ordered.take pool.toNat).map (fun p => p.1.data)

/-- pipeline.py `query_index` over the store contents.  The sqlite error
channel (`Result.failure` on storage exceptions) never fires in the
pure model, so the result is always `.ok`. -/
def queryIndex (store : List StoreRow) (fqnQ approxQ : Option String) (limit : Int)
    (kindF visF ownerF : Option String) : Except Error (List Sym) :=
  let rows : List Sym :=
    if truthy fqnQ then
      match store.find? (fun r => r.fqn = fqnQ.getD "") with
      | some r => [r.data]
      | none => []
    else if truthy approxQ then approxRows store (approxQ.getD "") limit
    else []
  .ok (postFilterGo kindF visF ownerF limit rows [])

/-- One line of `symbols.jsonl` for one object.  The concrete JSON
formatting is owned by an external collaborator (spec section 1); a
fixed injective-enough rendering of the discriminant and FQN stands in
for it.  Determinism statements only need it to be a function. -/
def renderSym (o : Sym) : String :=
  o.kind ++ " " ++ o.fqn

/-- The serialized symbol output of `emit`: one line per object, in
order. -/
def symbolsJsonl (objs : List Sym) : String :=
  String.join (objs.map (fun o => renderSym o ++ "\n"))

/-- The artifacts of a successful run: the validated objects, the
validation report, the committed index store, and the serialized symbol
output.  The manifest is omitted (its `extracted_at` field is a wall
clock read). -/
structure Artifacts where
  objects : List Sym
  report : ValidationReport
  store : List StoreRow
  jsonl : String
deriving DecidableEq, Repr

/-- Outcome of `run_pipeline`: an error list, artifacts, or an unhandled
Python exception escaping the call. -/
inductive PipeResult where
  | failure (errors : List Error)
  | ok (artifacts : Artifacts)
  | crashed
deriving DecidableEq, Repr

/-- One discovered source file: its path, its path parts relative to the
root (without suffix, as used for the module FQN), and its parse result
(`_parse_worker` output: a tree, or the parser diagnostic text). -/
structure SrcFile where
  path : String
  relParts : List String
  parsed : Except String PyModule

/-- The parse errors collected by `run_pipeline` across all files. -/
def collectedParseErrors (files : List SrcFile) : List Error :=
  files.filterMap (fun f =>
    match f.parsed with
    | .error msg => some ⟨"parse", msg, f.path⟩
    | .ok _ => none)

/-- The successfully parsed modules of a run, in file order: path,
module FQN (`_module_fqn_for`), and tree. -/
def modsOf (pkg : String) (files : List SrcFile) : List (String × String × PyModule) :=
  files.filterMap (fun f =>
    match f.parsed with
    | .ok m => some (f.path, moduleFqnFor pkg f.relParts, m)
    | .error _ => none)

/-- The pipeline stages downstream of parsing: extract and merge-sort
symbols, build alias tables, link, validate, and on success build the
index store and the emitted artifacts. -/
def pipelineFromMods (schemaOk : Sym → Bool) (mods : List (String × String × PyModule)) :
    PipeResult :=
  match optionMapM (fun pm => extractModule pm.2.2 pm.2.1 (some pm.1)) mods with
  | none => .crashed
  | some frags =>
    let symbols := sortByFqn frags.flatten
    let importTables := buildImportTables (mods.map (fun pm => (pm.2.1, pm.2.2)))
    let linked := link symbols importTables
    match validate schemaOk linked with
    | .error errs => .failure errs
    | .ok output =>
      .ok ⟨output.objects, output.report, buildStore output.objects,
        symbolsJsonl output.objects⟩

/-- pipeline.py `run_pipeline`, from the parse results onwards: collect
parse errors and abort before extraction if any; otherwise run the
downstream stages.  `schemaOk` models the external schema document and
validator. -/
def runPipeline (pkg : String) (schemaOk : Sym → Bool) (files : List SrcFile) :
    PipeResult :=
  let parseErrors : List Error := collectedParseErrors files
  if parseErrors ≠ [] then .failure parseErrors
  else pipelineFromMods schemaOk (modsOf pkg files)

/-! Shared lemmas about the sorting and deduplication helpers. -/

theorem contains_iff_mem (l : List String) (x : String) :
    l.contains x = true ↔ x ∈ l := List.elem_iff

theorem dedupFirst_mem (l : List String) (seen : List String) (x : String) :
    x ∈ dedupFirst seen l ↔ x ∈ l ∧ x ∉ seen := by
  induction l generalizing seen with
  | nil => simp [dedupFirst]
  | cons y ys ih =>
    by_cases hy : seen.contains y
    · simp only [dedupFirst, hy, if_true]
      rw [ih]
      constructor
      · rintro ⟨hx, hs⟩
        exact ⟨List.mem_cons_of_mem _ hx, hs⟩
      · rintro ⟨hx, hs⟩
        rcases List.mem_cons.mp hx with rfl | hx
        · exact absurd ((contains_iff_mem _ _).mp hy) hs
        · exact ⟨hx, hs⟩
    · have hy' : seen.contains y = false := by simpa using hy
      simp only [dedupFirst, hy', Bool.false_eq_true, if_false]
      rw [List.mem_cons, ih]
      simp only [List.mem_cons]
      constructor
      · rintro (rfl | ⟨hx, hs⟩)
        · exact ⟨Or.inl rfl, fun hc => hy ((contains_iff_mem _ _).mpr hc)⟩
        · exact ⟨Or.inr hx, fun hc => hs (Or.inr hc)⟩
      · rintro ⟨hxy | hx, hs⟩
        · exact Or.inl hxy
        · by_cases hxy : x = y
          · exact Or.inl hxy
          · exact Or.inr ⟨hx, fun hc => hc.elim hxy hs⟩

instance : IsTotal Sym (fun a b => strLe a.fqn b.fqn = true) :=
  ⟨fun a b => strLe_total a.fqn b.fqn⟩

instance : IsTrans Sym (fun a b => strLe a.fqn b.fqn = true) :=
  ⟨fun a b c => strLe_trans a.fqn b.fqn c.fqn⟩

instance : IsTotal String (fun a b => strLe a b = true) :=
  ⟨fun a b => strLe_total a b⟩

instance : IsTrans String (fun a b => strLe a b = true) :=
  ⟨fun a b c => strLe_trans a b c⟩

theorem sortByFqn_perm (l : List Sym) : (sortByFqn l).Perm l :=
  List.perm_insertionSort _ l

theorem sortByFqn_sorted (l : List Sym) :
    List.Sorted (fun a b => strLe a.fqn b.fqn = true) (sortByFqn l) :=
  List.sorted_insertionSort _ l

theorem sortStrings_perm (l : List String) : (sortStrings l).Perm l :=
  List.perm_insertionSort _ l

theorem sortStrings_sorted (l : List String) :
    List.Sorted (fun a b => strLe a b = true) (sortStrings l) :=
  List.sorted_insertionSort _ l

/-- Two FQN-sorted symbol lists that are permutations of each other and
have pairwise-distinct FQNs are equal. -/
theorem sorted_perm_eq_of_nodup_fqn (l₁ l₂ : List Sym)
    (hp : l₁.Perm l₂)
    (hs₁ : List.Sorted (fun a b => strLe a.fqn b.fqn = true) l₁)
    (hs₂ : List.Sorted (fun a b => strLe a.fqn b.fqn = true) l₂)
    (hn : (l₁.map Sym.fqn).Nodup) : l₁ = l₂ := by
  haveI : IsAntisymm Sym (fun a b => strLe a.fqn b.fqn = true ∧ a.fqn ≠ b.fqn) :=
    ⟨fun a b h1 h2 => absurd (strLe_antisymm _ _ h1.1 h2.1) h1.2⟩
  have hn₂ : (l₂.map Sym.fqn).Nodup := ((hp.map Sym.fqn).nodup_iff).mp hn
  have hne₁ : List.Pairwise (fun a b : Sym => a.fqn ≠ b.fqn) l₁ := List.pairwise_map.mp hn
  have hne₂ : List.Pairwise (fun a b : Sym => a.fqn ≠ b.fqn) l₂ := List.pairwise_map.mp hn₂
  exact List.eq_of_perm_of_sorted hp (hs₁.and hne₁) (hs₂.and hne₂)

/-- The head of a sorted string list is a minimum of the original list. -/
theorem sortStrings_head_min (l : List String) (m : String) (rest : List String)
    (h : sortStrings l = m :: rest) : m ∈ l ∧ ∀ x ∈ l, strLe m x = true := by
  have hperm := sortStrings_perm l
  rw [h] at hperm
  constructor
  · exact hperm.mem_iff.mp (List.mem_cons_self m rest)
  · intro x hx
    have hx' : x ∈ m :: rest := hperm.mem_iff.mpr hx
    rcases List.mem_cons.mp hx' with rfl | hx'
    · exact lexLe_refl _
    · have hs := sortStrings_sorted l
      rw [h] at hs
      exact List.rel_of_sorted_cons hs x hx'

/-! Claim C6: trigram generation and postings. -/

theorem toGrams_mem_iff (t w : String) :
    w ∈ toGrams t ↔ w.data.length = 3 ∧ w.data <:+: gramsChars t := by
  unfold toGrams
  rw [dedupFirst_mem]
  simp only [List.not_mem_nil, not_false_iff, and_true, List.mem_map, List.mem_range]
  constructor
  · rintro ⟨i, hi, rfl⟩
    have hlen : i < (gramsChars t).length - 2 := hi
    have hle : i + 3 ≤ (gramsChars t).length := by omega
    constructor
    · simp only [List.length_take, List.length_drop]
      omega
    · refine ⟨(gramsChars t).take i, (gramsChars t).drop (i + 3), ?_⟩
      have h1 : (gramsChars t).take i ++ ((gramsChars t).drop i).take 3
          = (gramsChars t).take (i + 3) := by
        rw [← List.take_add]
      rw [h1]
      exact List.take_append_drop _ _
  · rintro ⟨hw, p, suf, hps⟩
    refine ⟨p.length, ?_, ?_⟩
    · have hlen : (gramsChars t).length = p.length + w.data.length + suf.length := by
        rw [← hps]
        simp only [List.length_append]
      omega
    · have hdrop : (gramsChars t).drop p.length = w.data ++ suf := by
        rw [← hps, List.append_assoc, List.drop_left]
      have htake : ((gramsChars t).drop p.length).take 3 = w.data := by
        rw [hdrop, ← hw, List.take_left]
      rw [htake]

/-- Claim C6: for every text `t`, the trigram set computed for indexing
is exactly the set of all length-3 contiguous substrings of
`"^" + lowercase(t) + "$"`; and every indexed symbol's postings are the
union of the trigram sets of its bare name (the lowercased last dotted
segment of its FQN) and of its full FQN. -/
theorem trigram_generation_and_postings :
    (∀ t w : String, w ∈ toGrams t ↔ w.data.length = 3 ∧ w.data <:+: gramsChars t)
    ∧ (∀ obj : Sym, ∀ g : String,
        g ∈ (storeRowFor obj).grams
          ↔ g ∈ toGrams (pyLower (lastSeg obj.fqn)) ∨ g ∈ toGrams obj.fqn) := by
  constructor
  · exact toGrams_mem_iff
  · intro obj g
    unfold storeRowFor
    simp only
    rw [(sortStrings_perm _).mem_iff, dedupFirst_mem]
    simp [List.mem_append]

/-! Claim C9: query post-filters apply to exact lookups too. -/

theorem postFilterGo_mem_passes (kindF visF ownerF : Option String) (limit : Int) :
    ∀ (rows acc : List Sym),
      (∀ a ∈ acc, passesFilters kindF visF ownerF a = true) →
      ∀ o ∈ postFilterGo kindF visF ownerF limit rows acc,
        passesFilters kindF visF ownerF o = true := by
  intro rows
  induction rows with
  | nil =>
    intro acc hacc o ho
    simp only [postFilterGo, List.mem_reverse] at ho
    exact hacc o ho
  | cons r rest ih =>
    intro acc hacc o ho
    simp only [postFilterGo] at ho
    by_cases hr : passesFilters kindF visF ownerF r = true
    · rw [if_pos hr] at ho
      have hacc2 : ∀ a ∈ r :: acc, passesFilters kindF visF ownerF a = true := by
        intro a ha
        rcases List.mem_cons.mp ha with rfl | ha
        · exact hr
        · exact hacc a ha
      by_cases hl : limit ≤ ((r :: acc).length : Int)
      · rw [if_pos hl] at ho
        rw [List.mem_reverse] at ho
        exact hacc2 o ho
      · rw [if_neg hl] at ho
        exact ih (r :: acc) hacc2 o ho
    · rw [if_neg hr] at ho
      exact ih acc hacc o ho

/-- Claim C9: the kind/visibility/owner post-filters are applied to
exact-FQN lookups as well as to approximate lookups; an exact query for
an FQN present in the store returns a successful empty result (neither
an error nor the object) whenever the stored object fails a supplied
filter, and every returned object of any query passes all supplied
filters. -/
theorem query_index_filters_exact_lookups :
    (∀ (store : List StoreRow) (f : String) (r : StoreRow) (limit : Int)
        (kindF visF ownerF : Option String),
      f ≠ "" →
      store.find? (fun row => row.fqn = f) = some r →
      passesFilters kindF visF ownerF r.data = false →
      queryIndex store (some f) none limit kindF visF ownerF = .ok [])
    ∧ (∀ (store : List StoreRow) (fqnQ approxQ : Option String) (limit : Int)
        (kindF visF ownerF : Option String) (out : List Sym),
      queryIndex store fqnQ approxQ limit kindF visF ownerF = .ok out →
      ∀ o ∈ out, passesFilters kindF visF ownerF o = true) := by
  constructor
  · intro store f r limit kindF visF ownerF hf hfind hfail
    unfold queryIndex
    have ht : truthy (some f) = true := by simp [truthy, hf]
    rw [ht]
    simp only [if_true, Option.getD_some, hfind]
    simp [postFilterGo, hfail]
  · intro store fqnQ approxQ limit kindF visF ownerF out hq o ho
    simp only [queryIndex, Except.ok.injEq] at hq
    rw [← hq] at ho
    exact postFilterGo_mem_passes _ _ _ _ _ [] (by simp) o ho

/-- Witness for claim C9 at a concrete store: the stored class
`pkg.base.Base` is found by exact FQN but filtered out by
`kind = "function"`, giving a successful empty result. -/
theorem query_index_filters_exact_lookups_witness :
    queryIndex (buildStore [.classS "pkg.base.Base" ⟨"p", 1, 0⟩ none [] "public" false
      [] [] false false false]) (some "pkg.base.Base") none 10 (some "function")
      none none = .ok [] := by
  apply query_index_filters_exact_lookups.1 _ _
    (storeRowFor (.classS "pkg.base.Base" ⟨"p", 1, 0⟩ none [] "public" false
      [] [] false false false))
  · decide
  · decide
  · decide

/-! Claim C7: parse failures abort the pipeline before extraction. -/

/-- Claim C7: whenever at least one discovered file fails to parse,
`run_pipeline` returns exactly the collected parse errors of all failing
files, aborting before extraction — the failure outcome carries no
artifacts, so no symbol is extracted and no index store or emitted
output exists for the run. -/
theorem run_pipeline_aborts_on_parse_errors
    (pkg : String) (schemaOk : Sym → Bool) (files : List SrcFile)
    (h : ∃ f ∈ files, ∃ msg, f.parsed = .error msg) :
    runPipeline pkg schemaOk files = .failure (collectedParseErrors files) := by
  have hne : collectedParseErrors files ≠ [] := by
    obtain ⟨f, hf, msg, hmsg⟩ := h
    intro hnil
    have : (⟨"parse", msg, f.path⟩ : Error) ∈ collectedParseErrors files := by
      unfold collectedParseErrors
      rw [List.mem_filterMap]
      exact ⟨f, hf, by rw [hmsg]⟩
    rw [hnil] at this
    exact absurd this (List.not_mem_nil _)
  simp only [runPipeline]
  rw [if_pos hne]

/-- Witness for claim C7: one unparsable file among two aborts the run
with exactly its parse error. -/
theorem run_pipeline_aborts_on_parse_errors_witness :
    runPipeline "pkg" (fun _ => true)
      [⟨"root/a.py", ["a"], .error "invalid syntax"⟩,
       ⟨"root/b.py", ["b"], .ok ⟨[], ⟨1, 0⟩⟩⟩]
      = .failure [⟨"parse", "invalid syntax", "root/a.py"⟩] := by
  have h := run_pipeline_aborts_on_parse_errors "pkg" (fun _ => true)
    [⟨"root/a.py", ["a"], .error "invalid syntax"⟩,
     ⟨"root/b.py", ["b"], .ok ⟨[], ⟨1, 0⟩⟩⟩]
    ⟨⟨"root/a.py", ["a"], .error "invalid syntax"⟩, List.mem_cons_self _ _,
      "invalid syntax", rfl⟩
  rw [h]
  rfl

/-! Claim C3: decorator classification. -/

/-- The `is_property` flag of a function symbol. -/
def Sym.isPropertyFlag : Sym → Bool
  | .functionS _ _ _ _ _ _ _ _ _ _ _ _ p _ _ => p
  | _ => false

/-- The `is_classmethod` flag of a function symbol. -/
def Sym.isClassmethodFlag : Sym → Bool
  | .functionS _ _ _ _ _ _ _ _ _ _ c _ _ _ _ => c
  | _ => false

/-- The `is_staticmethod` flag of a function symbol. -/
def Sym.isStaticmethodFlag : Sym → Bool
  | .functionS _ _ _ _ _ _ _ _ _ _ _ st _ _ _ => st
  | _ => false

/-- The `deprecated` flag of a symbol. -/
def Sym.deprecatedFlag : Sym → Bool
  | .functionS _ _ _ _ _ _ _ d _ _ _ _ _ _ _ => d
  | .classS _ _ _ _ _ d _ _ _ _ _ => d
  | .constantS _ _ _ _ _ _ d => d
  | _ => false

/-- The `overload_of` field of a function symbol. -/
def Sym.overloadOfOpt : Sym → Option String
  | .functionS _ _ _ _ _ _ _ _ _ _ _ _ _ _ o => o
  | _ => none

/-- The claim's reading of decorator classification: the trailing
identifier of the decorator expression, i.e. the segment after the last
dot, with call arguments ignored. -/
def trailingIdent (d : String) : String :=
  lastSeg (decoSplitHead d)

/-- Counterexample to claim C3 as stated: the decorator
`cached_property` sets `is_property` (the code tests
`d.split("(")[0].endswith("property")`), although its trailing
identifier is `cached_property`, not `property`. -/
theorem decorator_classification_counterexample :
    ((functionFromDef "f" ⟨[], [], [], none, none⟩ none ["cached_property"] false []
        ⟨1, 0⟩ none "m" none "m").map Sym.isPropertyFlag = some true)
    ∧ (["cached_property"].any (fun d => trailingIdent d = "property")) = false := by
  constructor
  · rfl
  · rfl

/-- Claim C3 (amended): for every extracted function, `is_property`,
`is_classmethod`, `is_staticmethod` are true, and `overload_of` is
non-null, iff some decorator's text, truncated at its first `(` (so call
arguments are ignored), ends with the text `property`, `classmethod`,
`staticmethod`, or `overload` respectively — a suffix test on the
truncated text, not an equality with the trailing dot-segment — and
`deprecated` is true iff some decorator's text contains the substring
`deprecated`. -/
theorem decorator_classification (name : String) (params : ParamsNode)
    (returns : Option String) (decorators : List String) (asynchronous : Bool)
    (body : List Stmt) (pos : NodePos) (parentFqn : Option String)
    (moduleFqn : String) (exported : Option (List String)) (pathStr : String) (s : Sym)
    (h : functionFromDef name params returns decorators asynchronous body pos
      parentFqn moduleFqn exported pathStr = some s) :
    (s.isPropertyFlag = true ↔ ∃ d ∈ decorators, pyEndsWith (decoSplitHead d) "property" = true)
    ∧ (s.isClassmethodFlag = true ↔ ∃ d ∈ decorators, pyEndsWith (decoSplitHead d) "classmethod" = true)
    ∧ (s.isStaticmethodFlag = true ↔ ∃ d ∈ decorators, pyEndsWith (decoSplitHead d) "staticmethod" = true)
    ∧ (s.overloadOfOpt ≠ none ↔ ∃ d ∈ decorators, pyEndsWith (decoSplitHead d) "overload" = true)
    ∧ (s.deprecatedFlag = true ↔ ∃ d ∈ decorators, pyIn "deprecated" d = true) := by
  simp only [functionFromDef] at h
  cases hp : parseDocstringRaises (getDocstring body) with
  | none =>
    rw [hp] at h
    simp at h
  | some raises =>
    rw [hp] at h
    simp only [Option.some.injEq] at h
    subst h
    refine ⟨?_, ?_, ?_, ?_, ?_⟩
    · simp [Sym.isPropertyFlag, List.any_eq_true]
    · simp [Sym.isClassmethodFlag, List.any_eq_true]
    · simp [Sym.isStaticmethodFlag, List.any_eq_true]
    · by_cases hov : (decorators.any fun d => pyEndsWith (decoSplitHead d) "overload") = true
      · simp only [Sym.overloadOfOpt, hov, if_true, ne_eq]
        rw [List.any_eq_true] at hov
        exact ⟨fun _ => hov, fun _ => Option.some_ne_none _⟩
      · have hov2 : (decorators.any fun d => pyEndsWith (decoSplitHead d) "overload") = false := by
          simpa using hov
        simp only [Sym.overloadOfOpt, hov2, Bool.false_eq_true, if_false, ne_eq]
        refine ⟨fun hc => absurd trivial hc, fun hex => ?_⟩
        intro _
        exact hov ((List.any_eq_true).mpr hex)
    · simp [Sym.deprecatedFlag, List.any_eq_true]

/-- Witness for claim C3 at a concrete function definition carrying a
`functools.wraps(g)` and a `staticmethod` decorator. -/
theorem decorator_classification_witness :
    ∃ s, functionFromDef "f" ⟨[], [], [], none, none⟩ none
        ["functools.wraps(g)", "staticmethod"] false [] ⟨1, 0⟩ none "m" none "m"
        = some s
      ∧ (s.isStaticmethodFlag = true
          ↔ ∃ d ∈ ["functools.wraps(g)", "staticmethod"],
              pyEndsWith (decoSplitHead d) "staticmethod" = true) := by
  refine ⟨_, rfl, ?_⟩
  exact (decorator_classification "f" ⟨[], [], [], none, none⟩ none
    ["functools.wraps(g)", "staticmethod"] false [] ⟨1, 0⟩ none "m" none "m" _ rfl).2.2.1

/-! Claim C5: docstring raises parsing. -/

/-- The claim's algorithm taken literally: one pass over the lines with
an in-section flag, taking the leading token of the text before the
first colon — with no bullet stripping.  (`none` when a line has no such
token.) -/
def raisesClaimStep (st : Bool × Option (List String)) (line : String) :
    Bool × Option (List String) :=
  match st.2 with
  | none => st
  | some acc =>
    let stripped := pyStrip line
    if st.1 then
      if stripped = "" then (true, some acc)
      else if pyEndsWith stripped ":" && !(pyContainsChar stripped ' ') then
        (isRaisesHeader line, some acc)
      else
        match pyWords (beforeColon stripped) with
        | [] => (true, none)
        | n :: _ => (true, some (acc ++ [n]))
    else (isRaisesHeader line, some acc)

/-- The claim's raises algorithm, literally (no bullet stripping),
with first-seen deduplication. -/
def raisesClaimAlg (doc : Option String) : Option (List String) :=
  match doc with
  | none => some []
  | some d =>
    if d = "" then some []
    else ((((pySplitlines d).map pyRstrip).foldl raisesClaimStep (false, some [])).2).map
      (dedupFirst [])

/-- The amended description of `_parse_docstring_raises` as a single
line-by-line pass: a stripped line starting (case-insensitively) with
`raises:`/`raise:` turns the section flag on; inside a section, blank
lines are skipped, a bare `word:` header line with no spaces ends the
section unless it is itself a raises header, and any other line
contributes the leading whitespace-token of the text before the first
colon after stripping leading `-` and space bullet characters (`none`
models the `IndexError` when no token remains). -/
def raisesSpecStep (st : Bool × Option (List String)) (line : String) :
    Bool × Option (List String) :=
  match st.2 with
  | none => st
  | some acc =>
    let stripped := pyStrip line
    if st.1 then
      if stripped = "" then (true, some acc)
      else if pyEndsWith stripped ":" && !(pyContainsChar stripped ' ') then
        (isRaisesHeader line, some acc)
      else
        match pyWords (beforeColon (pyLstripDashSpace stripped)) with
        | [] => (true, none)
        | n :: _ => (true, some (if n ≠ "" then acc ++ [n] else acc))
    else (isRaisesHeader line, some acc)

/-- The amended raises specification with first-seen deduplication. -/
def raisesSpec (doc : Option String) : Option (List String) :=
  match doc with
  | none => some []
  | some d =>
    if d = "" then some []
    else ((((pySplitlines d).map pyRstrip).foldl raisesSpecStep (false, some [])).2).map
      (dedupFirst [])

theorem raisesSpecStep_foldl_none (lines : List String) (mode : Bool) :
    (lines.foldl raisesSpecStep (mode, none)).2 = none := by
  induction lines generalizing mode with
  | nil => rfl
  | cons l rest ih => exact ih mode

/-- The two nested while loops of `_parse_docstring_raises` compute the
single-pass fold of the amended specification. -/
theorem scanRaises_eq_foldl (lines : List String) : ∀ (mode : Bool) (acc : List String),
    (lines.foldl raisesSpecStep (mode, some acc)).2
      = (scanRaises mode lines).map (fun ns => acc ++ ns) := by
  induction lines with
  | nil =>
    intro mode acc
    cases mode <;> simp [scanRaises]
  | cons l rest ih =>
    intro mode acc
    cases mode with
    | false =>
      rw [List.foldl_cons]
      have hstep : raisesSpecStep (false, some acc) l = (isRaisesHeader l, some acc) := rfl
      rw [hstep]
      by_cases hh : isRaisesHeader l = true
      · rw [hh]
        simp only [scanRaises, hh, if_true]
        exact ih true acc
      · have hh' : isRaisesHeader l = false := by simpa using hh
        rw [hh']
        simp only [scanRaises, hh', Bool.false_eq_true, if_false]
        exact ih false acc
    | true =>
      rw [List.foldl_cons]
      by_cases he : pyStrip l = ""
      · have hstep : raisesSpecStep (true, some acc) l = (true, some acc) := by
          simp [raisesSpecStep, he]
        have hscan : scanRaises true (l :: rest) = scanRaises true rest := by
          simp [scanRaises, he]
        rw [hstep, hscan]
        exact ih true acc
      · by_cases hs : (pyEndsWith (pyStrip l) ":" && !(pyContainsChar (pyStrip l) ' ')) = true
        · have hstep : raisesSpecStep (true, some acc) l = (isRaisesHeader l, some acc) := by
            simp [raisesSpecStep, he, hs]
          have hscan : scanRaises true (l :: rest)
              = if isRaisesHeader l = true then scanRaises true rest
                else scanRaises false rest := by
            simp [scanRaises, he, hs]
          by_cases hh : isRaisesHeader l = true
          · rw [hstep, hscan, if_pos hh, hh]
            exact ih true acc
          · have hh' : isRaisesHeader l = false := by simpa using hh
            rw [hstep, hscan, if_neg hh, hh']
            exact ih false acc
        · cases hw : pyWords (beforeColon (pyLstripDashSpace (pyStrip l))) with
          | nil =>
            have hstep : raisesSpecStep (true, some acc) l = (true, none) := by
              simp [raisesSpecStep, he, hs, hw]
            have hscan : scanRaises true (l :: rest) = none := by
              simp [scanRaises, he, hs, hw]
            rw [hstep, hscan, raisesSpecStep_foldl_none]
            rfl
          | cons n ns =>
            have hstep : raisesSpecStep (true, some acc) l
                = (true, some (if n ≠ "" then acc ++ [n] else acc)) := by
              simp [raisesSpecStep, he, hs, hw]
            have hscan : scanRaises true (l :: rest)
                = (fun rs => if n ≠ "" then n :: rs else rs) <$> scanRaises true rest := by
              simp [scanRaises, he, hs, hw]
            rw [hstep, hscan]
            rw [ih true (if n ≠ "" then acc ++ [n] else acc)]
            cases hres : scanRaises true rest with
            | none => rfl
            | some res =>
              simp only [Option.map_some, Option.map]
              by_cases hn : n = ""
              · simp [hn]
              · simp [hn, List.append_assoc]

/-- Claim C5 (amended): for every function docstring, the code's raises
parser computes exactly the single-pass amended specification — the
leading run of `-` and space bullet characters is removed from the
whitespace-stripped line (Python `lstrip`, so leading only; trailing
bullet characters are kept) before the first whitespace token of the
text before the first colon is taken, and a section line retaining no
token makes the parser raise (modelled by `none`) — with duplicates
removed preserving first-seen order; in particular a `Raises:` section
with one bulleted `ExceptionName: detail` line yields that name exactly
once even if the line is repeated. -/
theorem docstring_raises_parsing :
    (∀ doc : Option String, parseDocstringRaises doc = raisesSpec doc)
    ∧ parseDocstringRaises (some "Raises:\n- MyErr: detail\n- MyErr: detail")
        = some ["MyErr"]
    ∧ parseDocstringRaises (some "Raises:\nValueError-: detail")
        = some ["ValueError-"] := by
  refine ⟨?_, rfl, rfl⟩
  intro doc
  cases doc with
  | none => rfl
  | some d =>
    by_cases hd : d = ""
    · simp [parseDocstringRaises, raisesSpec, hd]
    · simp only [parseDocstringRaises, raisesSpec, hd, if_neg hd]
      rw [scanRaises_eq_foldl ((pySplitlines d).map pyRstrip) false []]
      cases scanRaises false ((pySplitlines d).map pyRstrip) with
      | none => rfl
      | some res => simp

/-- Counterexample to claim C5 as stated: on the docstring
`"Raises:\n- ValueError: bad"` the code yields `ValueError` (it strips
the `- ` bullet first), while the claim's literal algorithm — the
leading token before the first colon, with no bullet stripping — yields
`-`. -/
theorem docstring_raises_counterexample :
    parseDocstringRaises (some "Raises:\n- ValueError: bad") = some ["ValueError"]
    ∧ raisesClaimAlg (some "Raises:\n- ValueError: bad") = some ["-"] := by
  constructor
  · rfl
  · rfl

/-! Claim C2: validation enforces referential closure. -/

/-- The `base_fqns` of a class symbol (empty for other variants). -/
def Sym.baseFqnsList : Sym → List String
  | .classS _ _ _ _ _ _ _ baseFqns _ _ _ => baseFqns
  | _ => []

/-- Referential closure over a symbol list: every owner reference
(function owners and constant owners, exactly the references `validate`
checks) and every class `base_fqns` entry is the FQN of some symbol of
the list. -/
def refClosed (symbols : List Sym) : Prop :=
  (∀ s ∈ symbols, ∀ o, s.ownerOpt = some o → o ∈ symbols.map Sym.fqn)
  ∧ (∀ s ∈ symbols, ∀ b ∈ s.baseFqnsList, b ∈ symbols.map Sym.fqn)

theorem refErrors_eq_nil_iff (fqnSet : List String) (s : Sym) :
    refErrors fqnSet s = []
      ↔ (∀ o, s.ownerOpt = some o → o ∈ fqnSet)
        ∧ (∀ b ∈ s.baseFqnsList, b ∈ fqnSet) := by
  cases s with
  | moduleS f loc d => simp [refErrors, Sym.ownerOpt, Sym.baseFqnsList]
  | typeAliasS f loc t => simp [refErrors, Sym.ownerOpt, Sym.baseFqnsList]
  | functionS f loc ps r d de v dep ia ow cm sm pr ra ov =>
    cases ow with
    | none => simp [refErrors, Sym.ownerOpt, Sym.baseFqnsList]
    | some o =>
      by_cases ho : fqnSet.contains o
      · simp [refErrors, Sym.ownerOpt, Sym.baseFqnsList, ho, (contains_iff_mem _ _).mp ho]
      · have ho' : o ∉ fqnSet := fun hm => ho ((contains_iff_mem _ _).mpr hm)
        simp only [refErrors, Sym.ownerOpt, Sym.baseFqnsList]
        have hc : fqnSet.contains o = false := by simpa using ho
        simp [hc, ho']
  | constantS f loc ow t v vis dep =>
    by_cases ho : fqnSet.contains ow
    · simp [refErrors, Sym.ownerOpt, Sym.baseFqnsList, ho, (contains_iff_mem _ _).mp ho]
    · have ho' : ow ∉ fqnSet := fun hm => ho ((contains_iff_mem _ _).mpr hm)
      have hc : fqnSet.contains ow = false := by simpa using ho
      simp [refErrors, Sym.ownerOpt, Sym.baseFqnsList, hc, ho']
  | classS f loc d de v dep bs bf e en pr =>
    simp only [refErrors, Sym.ownerOpt, Sym.baseFqnsList, List.filterMap_eq_nil_iff]
    constructor
    · intro h
      refine ⟨by simp, ?_⟩
      intro b hb
      have := h b hb
      by_cases hc : fqnSet.contains b
      · exact (contains_iff_mem _ _).mp hc
      · have hc' : fqnSet.contains b = false := by simpa using hc
        rw [hc'] at this
        simp at this
    · rintro ⟨-, h⟩
      intro b hb
      have hm := h b hb
      have hc : fqnSet.contains b = true := (contains_iff_mem _ _).mpr hm
      rw [hc]
      simp

theorem validateGo_errors_nil (schemaOk : Sym → Bool) (fqnSet : List String) :
    ∀ (rest : List Sym) (seen : List String),
      (validateGo schemaOk fqnSet rest seen).2.1 = [] →
      ∀ s ∈ rest, refErrors fqnSet s = [] := by
  intro rest
  induction rest with
  | nil => intro seen _ s hs; exact absurd hs (List.not_mem_nil s)
  | cons r rest' ih =>
    intro seen hnil s hs
    by_cases hdup : seen.contains r.fqn
    · exfalso
      simp only [validateGo, hdup, if_true] at hnil
      exact List.cons_ne_nil _ _ hnil
    · have hdup' : seen.contains r.fqn = false := by simpa using hdup
      simp only [validateGo, hdup', Bool.false_eq_true, if_false] at hnil
      rcases List.append_eq_nil.mp hnil with ⟨hsr, hrec⟩
      rcases List.append_eq_nil.mp hsr with ⟨hschema, hrefs⟩
      rcases List.mem_cons.mp hs with rfl | hs
      · exact hrefs
      · exact ih (r.fqn :: seen) hrec _ hs

theorem validateGo_refError_mem (schemaOk : Sym → Bool) (fqnSet : List String) :
    ∀ (rest : List Sym) (seen : List String),
      (rest.map Sym.fqn).Nodup →
      (∀ t ∈ rest, t.fqn ∉ seen) →
      ∀ s ∈ rest, ∀ e ∈ refErrors fqnSet s,
        e ∈ (validateGo schemaOk fqnSet rest seen).2.1 := by
  intro rest
  induction rest with
  | nil => intro seen _ _ s hs; exact absurd hs (List.not_mem_nil s)
  | cons r rest' ih =>
    intro seen hnd hseen s hs e he
    have hrseen : r.fqn ∉ seen := hseen r (List.mem_cons_self _ _)
    have hdup : seen.contains r.fqn = false := by
      simpa using fun hc => hrseen ((contains_iff_mem _ _).mp hc)
    simp only [validateGo, hdup, Bool.false_eq_true, if_false]
    rcases List.mem_cons.mp hs with rfl | hs
    · exact List.mem_append_left _ (List.mem_append_right _ he)
    · apply List.mem_append_right
      rw [List.map_cons, List.nodup_cons] at hnd
      refine ih (r.fqn :: seen) hnd.2 ?_ s hs e he
      intro t ht hmem
      rcases List.mem_cons.mp hmem with heq | hmem
      · exact hnd.1 (heq ▸ List.mem_map_of_mem Sym.fqn ht)
      · exact hseen t (List.mem_cons_of_mem _ ht) hmem

theorem validate_ok_closed (schemaOk : Sym → Bool) (symbols : List Sym)
    (out : ValidationOutput) (h : validate schemaOk symbols = .ok out) :
    refClosed symbols := by
  have hnil : (validateGo schemaOk (symbols.map Sym.fqn) symbols []).2.1 = [] := by
    by_contra hne
    simp only [validate, if_pos hne] at h
    exact Except.noConfusion h
  have hall := validateGo_errors_nil schemaOk (symbols.map Sym.fqn) symbols [] hnil
  constructor
  · intro s hs o ho
    exact ((refErrors_eq_nil_iff _ s).mp (hall s hs)).1 o ho
  · intro s hs b hb
    exact ((refErrors_eq_nil_iff _ s).mp (hall s hs)).2 b hb

/-- Claim C2 (amended): `validate` succeeds only if every function
owner, constant owner, and class `base_fqns` entry is the FQN of some
symbol of the set (any symbol, not necessarily a class symbol: the code
checks membership in the set of all FQNs); any violating reference makes
validation fail, and in a duplicate-free symbol set each violating
reference yields its `missing_ref` error; hence a successful run never
has dangling references. -/
theorem validate_referential_closure :
    (∀ (schemaOk : Sym → Bool) (symbols : List Sym) (out : ValidationOutput),
        validate schemaOk symbols = .ok out → refClosed symbols)
    ∧ (∀ (schemaOk : Sym → Bool) (symbols : List Sym),
        ¬ refClosed symbols → ∃ errs, validate schemaOk symbols = .error errs)
    ∧ (∀ (schemaOk : Sym → Bool) (symbols : List Sym) (s : Sym) (e : Error),
        (symbols.map Sym.fqn).Nodup → s ∈ symbols →
        e ∈ refErrors (symbols.map Sym.fqn) s →
        ∃ errs, validate schemaOk symbols = .error errs ∧ e ∈ errs
          ∧ e.code = "missing_ref") := by
  refine ⟨validate_ok_closed, ?_, ?_⟩
  · intro schemaOk symbols hnc
    cases hv : validate schemaOk symbols with
    | error errs => exact ⟨errs, rfl⟩
    | ok out => exact absurd (validate_ok_closed schemaOk symbols out hv) hnc
  · intro schemaOk symbols s e hnd hs he
    have hmem := validateGo_refError_mem schemaOk (symbols.map Sym.fqn) symbols []
      hnd (by intro t _ hm; exact absurd hm (List.not_mem_nil _)) s hs e he
    have hne : (validateGo schemaOk (symbols.map Sym.fqn) symbols []).2.1 ≠ [] := by
      intro hnil
      rw [hnil] at hmem
      exact absurd hmem (List.not_mem_nil e)
    refine ⟨(validateGo schemaOk (symbols.map Sym.fqn) symbols []).2.1, ?_, hmem, ?_⟩
    · simp only [validate, if_pos hne]
    · cases s with
      | functionS f loc ps r d de v dep ia ow cm sm pr ra ov =>
        cases ow with
        | none => simp [refErrors] at he
        | some o =>
          simp only [refErrors] at he
          by_cases hc : (symbols.map Sym.fqn).contains o
          · rw [if_pos hc] at he
            exact absurd he (List.not_mem_nil e)
          · have hc' : (symbols.map Sym.fqn).contains o = false := by simpa using hc
            rw [hc'] at he
            simp only [Bool.false_eq_true, if_false, List.mem_singleton] at he
            rw [he]
      | constantS f loc ow t v vis dep =>
        simp only [refErrors] at he
        by_cases hc : (symbols.map Sym.fqn).contains ow
        · rw [if_pos hc] at he
          exact absurd he (List.not_mem_nil e)
        · have hc' : (symbols.map Sym.fqn).contains ow = false := by simpa using hc
          rw [hc'] at he
          simp only [Bool.false_eq_true, if_false, List.mem_singleton] at he
          rw [he]
      | classS f loc d de v dep bs bf ex en pr =>
        simp only [refErrors, List.mem_filterMap] at he
        obtain ⟨b, _, hb⟩ := he
        by_cases hc : (symbols.map Sym.fqn).contains b
        · rw [if_pos hc] at hb
          exact absurd hb (by simp)
        · have hc' : (symbols.map Sym.fqn).contains b = false := by simpa using hc
          rw [hc'] at hb
          simp only [Bool.false_eq_true, if_false, Option.some.injEq] at hb
          rw [← hb]
      | moduleS f loc d => simp [refErrors] at he
      | typeAliasS f loc t => simp [refErrors] at he

/-- Counterexample to claim C2 as stated: a set where the class
`p.A` lists the plain function `p.f` among its `base_fqns` validates
successfully, although `p.f` is not the FQN of any class symbol — the
code checks base references against the set of all FQNs, not class
FQNs. -/
theorem validate_class_base_counterexample :
    validate (fun _ => true)
      [.classS "p.A" ⟨"p", 1, 0⟩ none [] "public" false [] ["p.f"] false false false,
       .functionS "p.f" ⟨"p", 2, 0⟩ [] none none [] "public" false false none
         false false false [] none]
      = .ok ⟨[.classS "p.A" ⟨"p", 1, 0⟩ none [] "public" false [] ["p.f"] false false false,
              .functionS "p.f" ⟨"p", 2, 0⟩ [] none none [] "public" false false none
                false false false [] none], ⟨2, 0⟩⟩
    ∧ (([.classS "p.A" ⟨"p", 1, 0⟩ none [] "public" false [] ["p.f"] false false false,
         .functionS "p.f" ⟨"p", 2, 0⟩ [] none none [] "public" false false none
           false false false [] none] : List Sym).filterMap
        (fun s => if s.isClassSym then some s.fqn else none)).contains "p.f" = false := by
  constructor
  · rfl
  · rfl

/-- Witness for claim C2 at a concrete violating set: a constant whose
owner `p.x` is not any symbol's FQN makes validation fail with its
`missing_ref` error. -/
theorem validate_referential_closure_witness :
    ∃ errs, validate (fun _ => true)
        [.constantS "p.x.C" ⟨"p", 1, 0⟩ "p.x" none none "public" false]
        = .error errs
      ∧ (⟨"missing_ref", "owner not found", "p.x.C -> p.x"⟩ : Error) ∈ errs
      ∧ (⟨"missing_ref", "owner not found", "p.x.C -> p.x"⟩ : Error).code
          = "missing_ref" := by
  exact validate_referential_closure.2.2 (fun _ => true)
    [Sym.constantS "p.x.C" ⟨"p", 1, 0⟩ "p.x" none none "public" false]
    (Sym.constantS "p.x.C" ⟨"p", 1, 0⟩ "p.x" none none "public" false)
    ⟨"missing_ref", "owner not found", "p.x.C -> p.x"⟩
    (by decide) (List.mem_cons_self _ _) (by decide)

/-! Claim C4: single-identifier base resolution priority. -/

/-- Claim C4: for a base expression that is a single identifier after
stripping whitespace and a `[...]` subscript (the code truncates at the
first `[`), the Linker resolves with this exact priority: (1) the
same-module candidate `currentMod ++ "." ++ id` when it is a known class
FQN; (2) else the alias-table target of `id` when that target is a known
class FQN; (3) else the lexicographically smallest FQN among all symbols
whose simple name equals `id`; and (4) when none applies the base
resolves to nothing, so `link` omits it from `base_fqns` without any
error.  The hypothesis that the empty string is not a class FQN holds
for every extracted symbol set (FQNs are dotted non-empty names). -/
theorem linker_single_identifier_resolution
    (symbols : List Sym) (aliasMap : List (String × String))
    (baseTxt currentMod id : String)
    (hhead : ((pySplitOn (pyStrip baseTxt) "[").headD "") = id)
    (hid : id ≠ "")
    (hsplit : pySplitOn id "." = [id])
    (classFqns : List String)
    (hclass : classFqns = symbols.filterMap (fun s =>
      if s.isClassSym then some s.fqn else none))
    (hempty : classFqns.contains "" = false) :
    (classFqns.contains (currentMod ++ "." ++ id) = true →
      resolveBase classFqns (nameToFqnsOf symbols) aliasMap baseTxt currentMod
        = some (currentMod ++ "." ++ id))
    ∧ (∀ t, classFqns.contains (currentMod ++ "." ++ id) = false →
        assocGet aliasMap id = some t → classFqns.contains t = true →
        resolveBase classFqns (nameToFqnsOf symbols) aliasMap baseTxt currentMod
          = some t)
    ∧ (classFqns.contains (currentMod ++ "." ++ id) = false →
        (∀ t, assocGet aliasMap id = some t → classFqns.contains t = false) →
        (symbols.filterMap (fun s => if lastSeg s.fqn = id then some s.fqn else none)) ≠ [] →
        ∃ m, resolveBase classFqns (nameToFqnsOf symbols) aliasMap baseTxt currentMod
            = some m
          ∧ m ∈ symbols.filterMap (fun s => if lastSeg s.fqn = id then some s.fqn else none)
          ∧ ∀ x ∈ symbols.filterMap (fun s => if lastSeg s.fqn = id then some s.fqn else none),
              strLe m x = true)
    ∧ (classFqns.contains (currentMod ++ "." ++ id) = false →
        (∀ t, assocGet aliasMap id = some t → classFqns.contains t = false) →
        (symbols.filterMap (fun s => if lastSeg s.fqn = id then some s.fqn else none)) = [] →
        resolveBase classFqns (nameToFqnsOf symbols) aliasMap baseTxt currentMod
          = none) := by
  have hbase :
      resolveBase classFqns (nameToFqnsOf symbols) aliasMap baseTxt currentMod
        = (if classFqns.contains (currentMod ++ "." ++ id) = true
            then some (currentMod ++ "." ++ id)
            else match (match assocGet aliasMap id with
              | some target =>
                if target ≠ "" ∧ classFqns.contains target = true then some target else none
              | none => none) with
              | some t => some t
              | none => match nameToFqnsOf symbols id with
                | [] => none
                | m :: _ => some m) := by
    simp only [resolveBase]
    rw [hhead]
    have hparts : (if id = "" then ([] : List String) else pySplitOn id ".") = [id] := by
      rw [if_neg hid, hsplit]
    rw [hparts]
    rfl
  have hsame_neg : classFqns.contains (currentMod ++ "." ++ id) = false →
      ¬ (classFqns.contains (currentMod ++ "." ++ id) = true) := by
    intro hf hc
    rw [hf] at hc
    exact Bool.false_ne_true hc
  refine ⟨?_, ?_, ?_, ?_⟩
  · intro hsame
    rw [hbase, if_pos hsame]
  · intro t hsame halias ht
    rw [hbase, if_neg (hsame_neg hsame), halias]
    have htne : t ≠ "" := by
      intro heq
      rw [heq, hempty] at ht
      exact Bool.false_ne_true ht
    have hmem := (contains_iff_mem classFqns t).mp ht
    simp [htne, ht, hmem]
  · intro hsame halias hne
    have hfall : (match assocGet aliasMap id with
        | some target =>
          if target ≠ "" ∧ classFqns.contains target = true then some target else none
        | none => none) = (none : Option String) := by
      cases ha : assocGet aliasMap id with
      | none => rfl
      | some t =>
        have hct := halias t ha
        have hno : ¬ (t ≠ "" ∧ classFqns.contains t = true) := by
          rintro ⟨-, h2⟩
          rw [hct] at h2
          exact Bool.false_ne_true h2
        simp [hno]
        intro _ hm
        have hcm := (contains_iff_mem classFqns t).mpr hm
        rw [hct] at hcm
        exact Bool.false_ne_true hcm
    rw [hbase, if_neg (hsame_neg hsame), hfall]
    cases hsort : nameToFqnsOf symbols id with
    | nil =>
      exfalso
      have hperm := sortStrings_perm (symbols.filterMap (fun s =>
        if lastSeg s.fqn = id then some s.fqn else none))
      rw [show sortStrings (symbols.filterMap (fun s =>
          if lastSeg s.fqn = id then some s.fqn else none)) = [] from hsort] at hperm
      exact hne (hperm.symm.eq_nil)
    | cons m rest =>
      have hmin := sortStrings_head_min _ m rest hsort
      exact ⟨m, rfl, hmin.1, hmin.2⟩
  · intro hsame halias hnil
    have hfall : (match assocGet aliasMap id with
        | some target =>
          if target ≠ "" ∧ classFqns.contains target = true then some target else none
        | none => none) = (none : Option String) := by
      cases ha : assocGet aliasMap id with
      | none => rfl
      | some t =>
        have hct := halias t ha
        have hno : ¬ (t ≠ "" ∧ classFqns.contains t = true) := by
          rintro ⟨-, h2⟩
          rw [hct] at h2
          exact Bool.false_ne_true h2
        simp [hno]
        intro _ hm
        have hcm := (contains_iff_mem classFqns t).mpr hm
        rw [hct] at hcm
        exact Bool.false_ne_true hcm
    rw [hbase, if_neg (hsame_neg hsame), hfall]
    have hnn : nameToFqnsOf symbols id = [] := by
      unfold nameToFqnsOf
      rw [hnil]
      rfl
    rw [hnn]

/-- Witness for claim C4: the identifier `Base` resolves to the
same-module class `pkg.sub.Base` even though an alias and a global
candidate exist; and with no same-module class, an alias to a known
class wins over the global index. -/
theorem linker_single_identifier_resolution_witness :
    resolveBase ["pkg.sub.Base", "pkg.base.Base"]
      (nameToFqnsOf [.classS "pkg.sub.Base" ⟨"p", 1, 0⟩ none [] "public" false [] []
          false false false,
        .classS "pkg.base.Base" ⟨"p", 1, 0⟩ none [] "public" false [] []
          false false false])
      [("Base", "pkg.base.Base")] "Base[int]" "pkg.sub"
      = some "pkg.sub.Base" := by
  exact (linker_single_identifier_resolution
    [.classS "pkg.sub.Base" ⟨"p", 1, 0⟩ none [] "public" false [] [] false false false,
     .classS "pkg.base.Base" ⟨"p", 1, 0⟩ none [] "public" false [] [] false false false]
    [("Base", "pkg.base.Base")] "Base[int]" "pkg.sub" "Base"
    (by decide) (by decide) (by decide)
    ["pkg.sub.Base", "pkg.base.Base"] (by decide) (by decide)).1 (by decide)

/-! Lemmas about `optionMapM` and the structure of `extract_module`. -/

theorem optionMapM_eq_some_iff (f : α → Option β) :
    ∀ (l : List α) (r : List β),
      optionMapM f l = some r ↔ List.Forall₂ (fun a b => f a = some b) l r := by
  intro l
  induction l with
  | nil =>
    intro r
    simp only [optionMapM, Option.some.injEq]
    constructor
    · rintro rfl
      exact List.Forall₂.nil
    · intro h
      cases h
      rfl
  | cons a l ih =>
    intro r
    simp only [optionMapM]
    cases hfa : f a with
    | none =>
      constructor
      · intro h
        exact absurd h (by simp)
      · intro h
        cases h with
        | cons hab _ => rw [hfa] at hab; exact absurd hab (by simp)
    | some b =>
      constructor
      · intro h
        cases hrec : optionMapM f l with
        | none => rw [hrec] at h; exact absurd h (by simp)
        | some r' =>
          rw [hrec] at h
          simp only [Option.map_some', Option.some.injEq] at h
          subst h
          exact List.Forall₂.cons hfa ((ih r').mp hrec)
      · intro h
        cases h with
        | cons hab htail =>
          rename_i b' r'
          have hb : b' = b := by
            rw [hfa] at hab
            exact (Option.some.inj hab).symm
          subst hb
          rw [(ih r').mpr htail]
          rfl

theorem optionMapM_mem (f : α → Option β) :
    ∀ (l : List α) (r : List β), optionMapM f l = some r →
      ∀ x ∈ r, ∃ a ∈ l, f a = some x := by
  intro l
  induction l with
  | nil =>
    intro r h x hx
    simp only [optionMapM, Option.some.injEq] at h
    subst h
    exact absurd hx (List.not_mem_nil x)
  | cons a l ih =>
    intro r h x hx
    simp only [optionMapM] at h
    cases hfa : f a with
    | none => rw [hfa] at h; exact absurd h (by simp)
    | some b =>
      rw [hfa] at h
      cases hrec : optionMapM f l with
      | none => rw [hrec] at h; exact absurd h (by simp)
      | some r' =>
        rw [hrec] at h
        simp only [Option.map_some', Option.some.injEq] at h
        subst h
        rcases List.mem_cons.mp hx with rfl | hx
        · exact ⟨a, List.mem_cons_self _ _, hfa⟩
        · obtain ⟨a', ha', hfa'⟩ := ih r' hrec x hx
          exact ⟨a', List.mem_cons_of_mem _ ha', hfa'⟩

theorem optionMapM_append (f : α → Option β) (l₁ l₂ : List α) :
    optionMapM f (l₁ ++ l₂)
      = (optionMapM f l₁).bind (fun a => (optionMapM f l₂).map (fun b => a ++ b)) := by
  induction l₁ with
  | nil =>
    simp only [List.nil_append, optionMapM]
    cases optionMapM f l₂ <;> rfl
  | cons a l₁' ih =>
    simp only [List.cons_append, optionMapM, List.append_eq]
    cases f a with
    | none => rfl
    | some b =>
      rw [ih]
      cases optionMapM f l₁' with
      | none => rfl
      | some r₁ =>
        cases optionMapM f l₂ <;> rfl

theorem optionMapM_congr_middle (f : α → Option β) (A B : List α) (x₁ x₂ : α)
    (h : f x₁ = f x₂) :
    optionMapM f (A ++ x₁ :: B) = optionMapM f (A ++ x₂ :: B) := by
  induction A with
  | nil =>
    simp only [List.nil_append, optionMapM, h]
  | cons a A' ih =>
    simp only [List.cons_append, optionMapM, List.append_eq]
    rw [ih]

/-- `get_docstring` of a non-empty statement list depends only on the
head statement. -/
theorem getDocstring_cons (a : Stmt) (t₁ t₂ : List Stmt) :
    getDocstring (a :: t₁) = getDocstring (a :: t₂) := by
  cases a with
  | simpleLineS smalls pos =>
    cases smalls with
    | nil => rfl
    | cons sm rest =>
      cases sm with
      | exprSS e => cases e <;> rfl
      | assignSS t v p => rfl
      | annAssignSS t an v p => rfl
      | importSS n => rfl
      | importFromSS r m n => rfl
      | otherSS => rfl
  | functionDefS n p r d a b pos => rfl
  | classDefS n b d bd pos => rfl
  | typeAliasStmtS n v pos => rfl
  | otherStmtS => rfl

/-- Appending statements to a non-empty body leaves its docstring
unchanged. -/
theorem getDocstring_append (body extra : List Stmt) (h : body ≠ []) :
    getDocstring (body ++ extra) = getDocstring body := by
  cases body with
  | nil => exact absurd rfl h
  | cons hd t => exact getDocstring_cons hd (t ++ extra) t

/-- Appending a nested class definition to any statement list leaves the
docstring unchanged. -/
theorem getDocstring_append_classdef (body : List Stmt) (n : String) (bs ds : List String)
    (bd : List Stmt) (pos : NodePos) :
    getDocstring (body ++ [.classDefS n bs ds bd pos]) = getDocstring body := by
  cases body with
  | nil => rfl
  | cons hd t => exact getDocstring_cons hd (t ++ [.classDefS n bs ds bd pos]) t

/-- A middle-statement congruence for `extract_module`: replacing one
top-level statement by another that contributes the same exports step,
the same docstring head, and the same extracted fragment leaves the
output unchanged. -/
theorem extractModule_congr_middle (A B : List Stmt) (x₁ x₂ : Stmt) (mp : NodePos)
    (moduleFqn : String) (modulePath : Option String)
    (hstep : ∀ st, exportsStep st x₁ = exportsStep st x₂)
    (hdoc : ∀ t, getDocstring (x₁ :: t) = getDocstring (x₂ :: t))
    (htop : ∀ ex path, extractTop x₁ moduleFqn ex path = extractTop x₂ moduleFqn ex path) :
    extractModule ⟨A ++ x₁ :: B, mp⟩ moduleFqn modulePath
      = extractModule ⟨A ++ x₂ :: B, mp⟩ moduleFqn modulePath := by
  have hexp : collectExports ⟨A ++ x₁ :: B, mp⟩ = collectExports ⟨A ++ x₂ :: B, mp⟩ := by
    simp only [collectExports, List.foldl_append, List.foldl_cons]
    rw [hstep]
  have hdocm : getDocstring (A ++ x₁ :: B) = getDocstring (A ++ x₂ :: B) := by
    cases A with
    | nil => exact hdoc B
    | cons a A' => exact getDocstring_cons a (A' ++ x₁ :: B) (A' ++ x₂ :: B)
  simp only [extractModule]
  rw [hexp, hdocm]
  rw [optionMapM_congr_middle _ A B x₁ x₂ (htop _ _)]

/-- The fields of a function symbol produced by `_function_from_def`
that the visibility and scope claims need. -/
theorem functionFromDef_props (name : String) (params : ParamsNode)
    (returns : Option String) (decorators : List String) (asynchronous : Bool)
    (body : List Stmt) (pos : NodePos) (parentFqn : Option String)
    (moduleFqn : String) (exported : Option (List String)) (pathStr : String) (s : Sym)
    (h : functionFromDef name params returns decorators asynchronous body pos
      parentFqn moduleFqn exported pathStr = some s) :
    s.kind = "function" ∧ s.ownerOpt = parentFqn
    ∧ s.fqn = parentFqn.getD moduleFqn ++ "." ++ name
    ∧ s.visibilityOpt = some (determineVisibility name
        (parentFqn.elim exported (fun _ => none))) := by
  simp only [functionFromDef] at h
  cases hp : parseDocstringRaises (getDocstring body) with
  | none =>
    rw [hp] at h
    exact absurd h (by simp)
  | some raises =>
    rw [hp] at h
    simp only [Option.some.injEq] at h
    subst h
    cases parentFqn with
    | none => exact ⟨rfl, rfl, rfl, rfl⟩
    | some o => exact ⟨rfl, rfl, rfl, rfl⟩

/-- Every symbol produced by `handle_simple_stmt` for one small
statement is a type alias or a constant of the owner scope with the
module-scope-sensitive visibility. -/
theorem handleSmall_mem (sm : SmallStmt) (ownerFqn moduleFqn : String)
    (ex : Option (List String)) (p : String) (s : Sym)
    (hs : s ∈ handleSmall sm ownerFqn moduleFqn ex p) :
    s.kind = "type_alias"
    ∨ (∃ n, s.kind = "constant" ∧ s.ownerOpt = some ownerFqn
        ∧ s.fqn = ownerFqn ++ "." ++ n
        ∧ s.visibilityOpt = some (determineVisibility n
            (if ownerFqn = moduleFqn then ex else none))) := by
  cases sm with
  | exprSS e => exact absurd hs (List.not_mem_nil s)
  | importSS n => exact absurd hs (List.not_mem_nil s)
  | importFromSS r mn n => exact absurd hs (List.not_mem_nil s)
  | otherSS => exact absurd hs (List.not_mem_nil s)
  | annAssignSS target ann v pos =>
    cases target with
    | otherT c => exact absurd hs (List.not_mem_nil s)
    | nameT n =>
      by_cases hta : lastSeg ann = "TypeAlias" ∧ v.isSome = true
      · rcases hta with ⟨h1, h2⟩
        cases v with
        | none => simp at h2
        | some vv =>
          simp only [handleSmall, h1, Option.isSome_some, and_self, if_true,
            List.mem_singleton] at hs
          subst hs
          exact Or.inl rfl
      · simp only [handleSmall, hta, if_false, List.mem_singleton] at hs
        subst hs
        exact Or.inr ⟨n, rfl, rfl, rfl, rfl⟩
  | assignSS targets v pos =>
    cases targets with
    | nil => exact absurd hs (List.not_mem_nil s)
    | cons t ts =>
      cases t with
      | otherT c => exact absurd hs (List.not_mem_nil s)
      | nameT n =>
        cases ts with
        | cons t2 ts2 => exact absurd hs (List.not_mem_nil s)
        | nil =>
          simp only [handleSmall, List.mem_singleton] at hs
          subst hs
          exact Or.inr ⟨n, rfl, rfl, rfl, rfl⟩

/-- Every symbol contributed by one top-level statement is a top-level
function, a method, a class, an owner-scoped constant, or a type alias,
with the visibilities `extract_module` assigns. -/
theorem extractTop_mem_cases (stmt : Stmt) (moduleFqn : String)
    (ex : Option (List String)) (p : String) (frag : List Sym) (s : Sym)
    (hm : extractTop stmt moduleFqn ex p = some frag) (hs : s ∈ frag) :
    (s.kind = "function" ∧ s.ownerOpt = none
      ∧ ∃ n, s.fqn = moduleFqn ++ "." ++ n
        ∧ s.visibilityOpt = some (determineVisibility n ex))
    ∨ (s.kind = "function" ∧ ∃ c, s.ownerOpt = some c)
    ∨ (s.kind = "class" ∧ ∃ n, s.fqn = moduleFqn ++ "." ++ n
        ∧ s.visibilityOpt = some (determineVisibility n none))
    ∨ (s.kind = "constant" ∧ ∃ n own, s.ownerOpt = some own
        ∧ s.fqn = own ++ "." ++ n
        ∧ s.visibilityOpt = some (determineVisibility n
            (if own = moduleFqn then ex else none)))
    ∨ s.kind = "type_alias" := by
  cases stmt with
  | otherStmtS =>
    simp only [extractTop, Option.some.injEq] at hm
    subst hm
    exact absurd hs (List.not_mem_nil s)
  | typeAliasStmtS n v pos =>
    simp only [extractTop, Option.some.injEq] at hm
    subst hm
    rcases List.mem_singleton.mp hs with rfl
    exact Or.inr (Or.inr (Or.inr (Or.inr rfl)))
  | simpleLineS smalls pos =>
    simp only [extractTop, Option.some.injEq] at hm
    subst hm
    rw [List.mem_flatten] at hs
    obtain ⟨fr, hfr, hsfr⟩ := hs
    rw [List.mem_map] at hfr
    obtain ⟨sm, _, rfl⟩ := hfr
    rcases handleSmall_mem sm moduleFqn moduleFqn ex p s hsfr with h | ⟨n, h1, h2, h3, h4⟩
    · exact Or.inr (Or.inr (Or.inr (Or.inr h)))
    · exact Or.inr (Or.inr (Or.inr (Or.inl ⟨h1, n, moduleFqn, h2, h3, h4⟩)))
  | functionDefS n pr r d a b pos =>
    simp only [extractTop] at hm
    cases hf : functionFromDef n pr r d a b pos none moduleFqn ex p with
    | none => rw [hf] at hm; exact absurd hm (by simp)
    | some sym =>
      rw [hf] at hm
      simp only [Option.map_some', Option.some.injEq] at hm
      subst hm
      rcases List.mem_singleton.mp hs with rfl
      obtain ⟨hk, ho, hf2, hv⟩ := functionFromDef_props n pr r d a b pos none
        moduleFqn ex p s hf
      exact Or.inl ⟨hk, ho, n, hf2, hv⟩
  | classDefS name bases decorators body pos =>
    simp only [extractTop] at hm
    cases hmm : optionMapM (fun c => classMember c (moduleFqn ++ "." ++ name)
        moduleFqn ex p) body with
    | none => rw [hmm] at hm; exact absurd hm (by simp)
    | some ms =>
      rw [hmm] at hm
      simp only [Option.map_some', Option.some.injEq] at hm
      subst hm
      rcases List.mem_cons.mp hs with rfl | hs
      · exact Or.inr (Or.inr (Or.inl ⟨rfl, name, rfl, rfl⟩))
      · rw [List.mem_flatten] at hs
        obtain ⟨fr, hfr, hsfr⟩ := hs
        obtain ⟨c, _, hcm⟩ := optionMapM_mem _ body ms hmm fr hfr
        cases c with
        | functionDefS n2 pr2 r2 d2 a2 b2 pos2 =>
          simp only [classMember] at hcm
          cases hf : functionFromDef n2 pr2 r2 d2 a2 b2 pos2
              (some (moduleFqn ++ "." ++ name)) moduleFqn ex p with
          | none => rw [hf] at hcm; exact absurd hcm (by simp)
          | some sym =>
            rw [hf] at hcm
            simp only [Option.map_some', Option.some.injEq] at hcm
            subst hcm
            rcases List.mem_singleton.mp hsfr with rfl
            obtain ⟨hk, ho, -, -⟩ := functionFromDef_props n2 pr2 r2 d2 a2 b2 pos2
              (some (moduleFqn ++ "." ++ name)) moduleFqn ex p s hf
            exact Or.inr (Or.inl ⟨hk, moduleFqn ++ "." ++ name, ho⟩)
        | simpleLineS smalls2 pos2 =>
          simp only [classMember, Option.some.injEq] at hcm
          subst hcm
          rw [List.mem_flatten] at hsfr
          obtain ⟨fr2, hfr2, hsfr2⟩ := hsfr
          rw [List.mem_map] at hfr2
          obtain ⟨sm, _, rfl⟩ := hfr2
          rcases handleSmall_mem sm (moduleFqn ++ "." ++ name) moduleFqn ex p s hsfr2
            with h | ⟨n2, h1, h2, h3, h4⟩
          · exact Or.inr (Or.inr (Or.inr (Or.inr h)))
          · exact Or.inr (Or.inr (Or.inr (Or.inl
              ⟨h1, n2, moduleFqn ++ "." ++ name, h2, h3, h4⟩)))
        | classDefS n2 b2 d2 bd2 pos2 =>
          simp only [classMember, Option.some.injEq] at hcm
          subst hcm
          exact absurd hsfr (List.not_mem_nil s)
        | typeAliasStmtS n2 v2 pos2 =>
          simp only [classMember, Option.some.injEq] at hcm
          subst hcm
          exact absurd hsfr (List.not_mem_nil s)
        | otherStmtS =>
          simp only [classMember, Option.some.injEq] at hcm
          subst hcm
          exact absurd hsfr (List.not_mem_nil s)

/-- Structural decomposition of a successful `extract_module` run. -/
theorem extractModule_cases (m : PyModule) (moduleFqn : String) (p : Option String)
    (syms : List Sym) (h : extractModule m moduleFqn p = some syms) :
    ∃ frs, optionMapM (fun st => extractTop st moduleFqn (collectExports m) (p.getD moduleFqn))
        m.body = some frs
      ∧ syms = sortByFqn (Sym.moduleS moduleFqn ⟨p.getD moduleFqn, m.pos.line, m.pos.column⟩
          (getDocstring m.body) :: frs.flatten) := by
  simp only [extractModule] at h
  cases hm : optionMapM (fun st => extractTop st moduleFqn (collectExports m)
      (p.getD moduleFqn)) m.body with
  | none => rw [hm] at h; exact absurd h (by simp)
  | some frs =>
    rw [hm] at h
    simp only [Option.map_some', Option.some.injEq] at h
    exact ⟨frs, rfl, h.symm⟩

/-! Claim C10: extraction scope, module symbol uniqueness, sortedness. -/

/-- `_function_from_def` reads a function body only through its
docstring. -/
theorem functionFromDef_body_congr (name : String) (params : ParamsNode)
    (returns : Option String) (decorators : List String) (asynchronous : Bool)
    (b₁ b₂ : List Stmt) (pos : NodePos) (parentFqn : Option String)
    (moduleFqn : String) (exported : Option (List String)) (pathStr : String)
    (hdoc : getDocstring b₁ = getDocstring b₂) :
    functionFromDef name params returns decorators asynchronous b₁ pos parentFqn
        moduleFqn exported pathStr
      = functionFromDef name params returns decorators asynchronous b₂ pos parentFqn
        moduleFqn exported pathStr := by
  simp only [functionFromDef]
  rw [hdoc]

/-- Appending statements to a non-empty top-level function body changes
nothing in its extracted fragment. -/
theorem extractTop_fnbody_append (n : String) (pr : ParamsNode) (r : Option String)
    (d : List String) (a : Bool) (body extra : List Stmt) (pos : NodePos)
    (moduleFqn : String) (ex : Option (List String)) (p : String) (hb : body ≠ []) :
    extractTop (.functionDefS n pr r d a (body ++ extra) pos) moduleFqn ex p
      = extractTop (.functionDefS n pr r d a body pos) moduleFqn ex p := by
  simp only [extractTop]
  rw [functionFromDef_body_congr n pr r d a (body ++ extra) body pos none moduleFqn ex p
    (getDocstring_append body extra hb)]

/-- Appending a nested class definition to a class body changes nothing
in the class's extracted fragment: the member loop skips statements that
are neither function definitions nor simple statement lines. -/
theorem extractTop_class_append (name : String) (bases decos : List String)
    (cbody : List Stmt) (n2 : String) (b2 d2 : List String) (bd2 : List Stmt)
    (pos2 pos : NodePos) (moduleFqn : String) (ex : Option (List String)) (p : String) :
    extractTop (.classDefS name bases decos
        (cbody ++ [.classDefS n2 b2 d2 bd2 pos2]) pos) moduleFqn ex p
      = extractTop (.classDefS name bases decos cbody pos) moduleFqn ex p := by
  simp only [extractTop]
  rw [getDocstring_append_classdef]
  rw [optionMapM_append]
  have h1 : optionMapM (fun c => classMember c (moduleFqn ++ "." ++ name) moduleFqn ex p)
      [.classDefS n2 b2 d2 bd2 pos2] = some [[]] := rfl
  rw [h1]
  cases hc : optionMapM (fun c => classMember c (moduleFqn ++ "." ++ name) moduleFqn ex p)
      cbody with
  | none => rfl
  | some ms => simp [List.flatten_append]

/-- Appending statements to a non-empty method body changes nothing in
the enclosing class's extracted fragment. -/
theorem extractTop_methodbody_append (name : String) (bases decos : List String)
    (A2 B2 : List Stmt) (n2 : String) (pr2 : ParamsNode) (r2 : Option String)
    (d2 : List String) (a2 : Bool) (mbody extra : List Stmt) (pos2 pos : NodePos)
    (moduleFqn : String) (ex : Option (List String)) (p : String) (hb : mbody ≠ []) :
    extractTop (.classDefS name bases decos
        (A2 ++ .functionDefS n2 pr2 r2 d2 a2 (mbody ++ extra) pos2 :: B2) pos) moduleFqn ex p
      = extractTop (.classDefS name bases decos
        (A2 ++ .functionDefS n2 pr2 r2 d2 a2 mbody pos2 :: B2) pos) moduleFqn ex p := by
  simp only [extractTop]
  have hdoc : getDocstring (A2 ++ .functionDefS n2 pr2 r2 d2 a2 (mbody ++ extra) pos2 :: B2)
      = getDocstring (A2 ++ .functionDefS n2 pr2 r2 d2 a2 mbody pos2 :: B2) := by
    cases A2 with
    | nil => rfl
    | cons a A2' => exact getDocstring_cons a _ _
  rw [hdoc]
  have hcm : classMember (.functionDefS n2 pr2 r2 d2 a2 (mbody ++ extra) pos2)
        (moduleFqn ++ "." ++ name) moduleFqn ex p
      = classMember (.functionDefS n2 pr2 r2 d2 a2 mbody pos2)
        (moduleFqn ++ "." ++ name) moduleFqn ex p := by
    simp only [classMember]
    rw [functionFromDef_body_congr n2 pr2 r2 d2 a2 (mbody ++ extra) mbody pos2
      (some (moduleFqn ++ "." ++ name)) moduleFqn ex p (getDocstring_append mbody extra hb)]
  rw [optionMapM_congr_middle _ A2 B2 _ _ hcm]

/-- Claim C10: `extract_module` visits only module-level statements and
the immediate bodies of module-level classes.  The output of a
successful extraction contains exactly one module symbol, whose FQN is
the given module FQN, and is sorted by FQN; extending a top-level
function body, appending a class definition nested inside a class body
(whose members are never visited), or extending a method body inside a
class, leaves the output unchanged — so functions or classes defined
inside function bodies and members of nested classes contribute no
symbol. -/
theorem extract_module_scope :
    (∀ (m : PyModule) (moduleFqn : String) (p : Option String) (syms : List Sym),
        extractModule m moduleFqn p = some syms →
        syms.countP (fun s => s.kind == "module") = 1
        ∧ (∀ s ∈ syms, s.kind = "module" → s.fqn = moduleFqn)
        ∧ List.Sorted (fun a b => strLe a.fqn b.fqn = true) syms)
    ∧ (∀ (A B : List Stmt) (n : String) (pr : ParamsNode) (r : Option String)
        (d : List String) (a : Bool) (body extra : List Stmt) (pos mp : NodePos)
        (moduleFqn : String) (p : Option String), body ≠ [] →
        extractModule ⟨A ++ .functionDefS n pr r d a (body ++ extra) pos :: B, mp⟩
            moduleFqn p
          = extractModule ⟨A ++ .functionDefS n pr r d a body pos :: B, mp⟩ moduleFqn p)
    ∧ (∀ (A B : List Stmt) (name : String) (bases decos : List String)
        (cbody : List Stmt) (n2 : String) (b2 d2 : List String) (bd2 : List Stmt)
        (pos2 pos mp : NodePos) (moduleFqn : String) (p : Option String),
        extractModule ⟨A ++ .classDefS name bases decos
            (cbody ++ [.classDefS n2 b2 d2 bd2 pos2]) pos :: B, mp⟩ moduleFqn p
          = extractModule ⟨A ++ .classDefS name bases decos cbody pos :: B, mp⟩
            moduleFqn p)
    ∧ (∀ (A B : List Stmt) (name : String) (bases decos : List String)
        (A2 B2 : List Stmt) (n2 : String) (pr2 : ParamsNode) (r2 : Option String)
        (d2 : List String) (a2 : Bool) (mbody extra : List Stmt) (pos2 pos mp : NodePos)
        (moduleFqn : String) (p : Option String), mbody ≠ [] →
        extractModule ⟨A ++ .classDefS name bases decos
            (A2 ++ .functionDefS n2 pr2 r2 d2 a2 (mbody ++ extra) pos2 :: B2) pos :: B, mp⟩
            moduleFqn p
          = extractModule ⟨A ++ .classDefS name bases decos
            (A2 ++ .functionDefS n2 pr2 r2 d2 a2 mbody pos2 :: B2) pos :: B, mp⟩
            moduleFqn p) := by
  refine ⟨?_, ?_, ?_, ?_⟩
  · intro m moduleFqn p syms h
    obtain ⟨frs, hfrs, hsyms⟩ := extractModule_cases m moduleFqn p syms h
    have hperm : syms.Perm (Sym.moduleS moduleFqn
        ⟨p.getD moduleFqn, m.pos.line, m.pos.column⟩ (getDocstring m.body) :: frs.flatten) := by
      rw [hsyms]
      exact sortByFqn_perm _
    have hflat : ∀ s ∈ frs.flatten, ¬ (s.kind == "module") = true := by
      intro s hsf
      rw [List.mem_flatten] at hsf
      obtain ⟨fr, hfr, hsfr⟩ := hsf
      obtain ⟨stmt, _, hstmt⟩ := optionMapM_mem _ m.body frs hfrs fr hfr
      rcases extractTop_mem_cases stmt moduleFqn (collectExports m) (p.getD moduleFqn)
          fr s hstmt hsfr with ⟨hk, -⟩ | ⟨hk, -⟩ | ⟨hk, -⟩ | ⟨hk, -⟩ | hk
        <;> rw [hk] <;> decide
    refine ⟨?_, ?_, ?_⟩
    · rw [hperm.countP_eq]
      rw [List.countP_cons]
      have hz : frs.flatten.countP (fun s => s.kind == "module") = 0 :=
        List.countP_eq_zero.mpr hflat
      rw [hz]
      rfl
    · intro s hsmem hmod
      rcases List.mem_cons.mp (hperm.mem_iff.mp hsmem) with rfl | hsf
      · rfl
      · exact absurd (by rw [hmod]; rfl) (hflat s hsf)
    · rw [hsyms]
      exact sortByFqn_sorted _
  · intro A B n pr r d a body extra pos mp moduleFqn p hb
    exact extractModule_congr_middle A B _ _ mp moduleFqn p
      (fun st => rfl) (fun t => rfl)
      (fun ex path => extractTop_fnbody_append n pr r d a body extra pos moduleFqn ex path hb)
  · intro A B name bases decos cbody n2 b2 d2 bd2 pos2 pos mp moduleFqn p
    exact extractModule_congr_middle A B _ _ mp moduleFqn p
      (fun st => rfl) (fun t => rfl)
      (fun ex path => extractTop_class_append name bases decos cbody n2 b2 d2 bd2 pos2 pos
        moduleFqn ex path)
  · intro A B name bases decos A2 B2 n2 pr2 r2 d2 a2 mbody extra pos2 pos mp moduleFqn p hb
    exact extractModule_congr_middle A B _ _ mp moduleFqn p
      (fun st => rfl) (fun t => rfl)
      (fun ex path => extractTop_methodbody_append name bases decos A2 B2 n2 pr2 r2 d2 a2
        mbody extra pos2 pos moduleFqn ex path hb)

/-- Witness for claim C10 at a concrete one-function module. -/
theorem extract_module_scope_witness :
    ([Sym.moduleS "m" ⟨"m", 1, 0⟩ none,
      Sym.functionS "m.f" ⟨"m", 1, 0⟩ [] none none [] "public" false false none
        false false false [] none].countP (fun s => s.kind == "module") = 1)
    ∧ (∀ s ∈ [Sym.moduleS "m" ⟨"m", 1, 0⟩ none,
        Sym.functionS "m.f" ⟨"m", 1, 0⟩ [] none none [] "public" false false none
          false false false [] none], s.kind = "module" → s.fqn = "m")
    ∧ List.Sorted (fun a b => strLe a.fqn b.fqn = true)
        [Sym.moduleS "m" ⟨"m", 1, 0⟩ none,
         Sym.functionS "m.f" ⟨"m", 1, 0⟩ [] none none [] "public" false false none
           false false false [] none] := by
  exact extract_module_scope.1
    ⟨[.functionDefS "f" ⟨[], [], [], none, none⟩ none [] false [.otherStmtS] ⟨1, 0⟩], ⟨1, 0⟩⟩
    "m" none _ rfl

/-! Claim C1: visibility rules at module scope. -/

/-- The claim's visibility relation under an optional export list: with
an export list, public iff listed; without, private iff the name starts
with an underscore. -/
def exportVisibilityOk (exports : Option (List String)) (n v : String) : Prop :=
  match exports with
  | some ex => (v = "public" ↔ n ∈ ex)
  | none => (v = "private" ↔ pyStartsWith n "_" = true)

/-- The leading-underscore convention alone. -/
def underscoreVisibilityOk (n v : String) : Prop :=
  v = "private" ↔ pyStartsWith n "_" = true

theorem determineVisibility_export_ok (n : String) (exports : Option (List String)) :
    exportVisibilityOk exports n (determineVisibility n exports) := by
  cases exports with
  | some ex =>
    simp only [determineVisibility, exportVisibilityOk]
    by_cases hm : ex.contains n = true
    · rw [if_pos hm]
      simp [(contains_iff_mem _ _).mp hm]
    · rw [if_neg hm]
      constructor
      · intro habs
        exact absurd habs (by decide)
      · intro hmem
        exact absurd ((contains_iff_mem _ _).mpr hmem) hm
  | none =>
    simp only [determineVisibility, exportVisibilityOk]
    by_cases hu : pyStartsWith n "_" = true
    · rw [if_pos hu]
      simp [hu]
    · rw [if_neg hu]
      constructor
      · intro habs
        exact absurd habs (by decide)
      · intro h
        exact absurd h hu

/-- Claim C1 (amended): in a successful extraction, every top-level
function and every top-level constant is `public` iff its name appears
in the export list when the module declares one (and otherwise follows
the leading-underscore convention), while every class's visibility
always follows the leading-underscore convention — the export list is
never consulted for classes. -/
theorem visibility_rules (m : PyModule) (moduleFqn : String) (modulePath : Option String)
    (syms : List Sym) (h : extractModule m moduleFqn modulePath = some syms) :
    ∀ s ∈ syms,
      (s.kind = "function" → s.ownerOpt = none →
        ∃ n, s.fqn = moduleFqn ++ "." ++ n
          ∧ exportVisibilityOk (collectExports m) n (pyStr s.visibilityOpt))
      ∧ (s.kind = "class" →
        ∃ n, s.fqn = moduleFqn ++ "." ++ n
          ∧ underscoreVisibilityOk n (pyStr s.visibilityOpt))
      ∧ (s.kind = "constant" → s.ownerOpt = some moduleFqn →
        ∃ n, s.fqn = moduleFqn ++ "." ++ n
          ∧ exportVisibilityOk (collectExports m) n (pyStr s.visibilityOpt)) := by
  intro s hsmem
  obtain ⟨frs, hfrs, hsyms⟩ := extractModule_cases m moduleFqn modulePath syms h
  have hperm : syms.Perm (Sym.moduleS moduleFqn
      ⟨modulePath.getD moduleFqn, m.pos.line, m.pos.column⟩
      (getDocstring m.body) :: frs.flatten) := by
    rw [hsyms]
    exact sortByFqn_perm _
  rcases List.mem_cons.mp (hperm.mem_iff.mp hsmem) with rfl | hsf
  · refine ⟨?_, ?_, ?_⟩
    · intro hk
      simp [Sym.kind] at hk
    · intro hk
      simp [Sym.kind] at hk
    · intro hk
      simp [Sym.kind] at hk
  · rw [List.mem_flatten] at hsf
    obtain ⟨fr, hfr, hsfr⟩ := hsf
    obtain ⟨stmt, _, hstmt⟩ := optionMapM_mem _ m.body frs hfrs fr hfr
    rcases extractTop_mem_cases stmt moduleFqn (collectExports m)
        (modulePath.getD moduleFqn) fr s hstmt hsfr with
      ⟨hk, ho, n, hfq, hv⟩ | ⟨hk, c, ho⟩ | ⟨hk, n, hfq, hv⟩ | ⟨hk, n, own, ho, hfq, hv⟩ | hk
    · refine ⟨?_, ?_, ?_⟩
      · intro _ _
        refine ⟨n, hfq, ?_⟩
        rw [hv]
        exact determineVisibility_export_ok n (collectExports m)
      · intro hc
        rw [hk] at hc
        exact absurd hc (by decide)
      · intro hc
        rw [hk] at hc
        exact absurd hc (by decide)
    · refine ⟨?_, ?_, ?_⟩
      · intro _ hnone
        rw [ho] at hnone
        exact absurd hnone (by simp)
      · intro hc
        rw [hk] at hc
        exact absurd hc (by decide)
      · intro hc
        rw [hk] at hc
        exact absurd hc (by decide)
    · refine ⟨?_, ?_, ?_⟩
      · intro hc
        rw [hk] at hc
        exact absurd hc (by decide)
      · intro _
        refine ⟨n, hfq, ?_⟩
        rw [hv]
        exact determineVisibility_export_ok n none
      · intro hc
        rw [hk] at hc
        exact absurd hc (by decide)
    · refine ⟨?_, ?_, ?_⟩
      · intro hc
        rw [hk] at hc
        exact absurd hc (by decide)
      · intro hc
        rw [hk] at hc
        exact absurd hc (by decide)
      · intro _ hown
        rw [ho] at hown
        have hOwnEq : own = moduleFqn := Option.some.inj hown
        subst hOwnEq
        refine ⟨n, hfq, ?_⟩
        rw [hv, if_pos rfl]
        exact determineVisibility_export_ok n (collectExports m)
    · refine ⟨?_, ?_, ?_⟩
      · intro hc
        rw [hk] at hc
        exact absurd hc (by decide)
      · intro hc
        rw [hk] at hc
        exact absurd hc (by decide)
      · intro hc
        rw [hk] at hc
        exact absurd hc (by decide)

/-- Counterexample to claim C1 as stated: a module declaring an empty
export list `__all__ = []` extracts its class `Foo` with visibility
`public`, although `Foo` is absent from the export list — classes
bypass the export-list rule (`extract_module` calls
`_determine_visibility` without the exports for classes). -/
theorem visibility_export_counterexample :
    collectExports ⟨[.simpleLineS [.assignSS [.nameT "__all__"] (.listE [] "[]") ⟨1, 0⟩]
        ⟨1, 0⟩, .classDefS "Foo" [] [] [.otherStmtS] ⟨2, 0⟩], ⟨1, 0⟩⟩ = some []
    ∧ (extractModule ⟨[.simpleLineS [.assignSS [.nameT "__all__"] (.listE [] "[]") ⟨1, 0⟩]
          ⟨1, 0⟩, .classDefS "Foo" [] [] [.otherStmtS] ⟨2, 0⟩], ⟨1, 0⟩⟩ "m" none).map
        (List.map (fun s => (s.fqn, pyStr s.visibilityOpt)))
        = some [("m", "None"), ("m.Foo", "public"), ("m.__all__", "private")] := by
  constructor
  · rfl
  · rfl

/-- Witness for claim C1 at a concrete one-function module without an
export list: the extracted function `m.f` satisfies the visibility
relation. -/
theorem visibility_rules_witness :
    ∃ n, (Sym.functionS "m.f" ⟨"m", 1, 0⟩ [] none none [] "public" false false none
        false false false [] none).fqn = "m" ++ "." ++ n
      ∧ exportVisibilityOk (collectExports
          ⟨[.functionDefS "f" ⟨[], [], [], none, none⟩ none [] false [.otherStmtS]
            ⟨1, 0⟩], ⟨1, 0⟩⟩) n
          (pyStr (Sym.functionS "m.f" ⟨"m", 1, 0⟩ [] none none [] "public" false false
            none false false false [] none).visibilityOpt) := by
  exact (visibility_rules
    ⟨[.functionDefS "f" ⟨[], [], [], none, none⟩ none [] false [.otherStmtS] ⟨1, 0⟩], ⟨1, 0⟩⟩
    "m" none
    [Sym.moduleS "m" ⟨"m", 1, 0⟩ none,
     Sym.functionS "m.f" ⟨"m", 1, 0⟩ [] none none [] "public" false false none
       false false false [] none] rfl
    (Sym.functionS "m.f" ⟨"m", 1, 0⟩ [] none none [] "public" false false none
       false false false [] none)
    (List.mem_cons_of_mem _ (List.mem_cons_self _ _))).1 rfl rfl

/-! Claim C8: determinism of the emitted symbol output. -/

/-- A successful `optionMapM` run is the plain `map` of the defaulted
results. -/
theorem optionMapM_some_eq_map (f : α → Option (List β)) :
    ∀ (l : List α) (r : List (List β)), optionMapM f l = some r →
      r = l.map (fun a => (f a).getD []) := by
  intro l
  induction l with
  | nil =>
    intro r h
    simp only [optionMapM, Option.some.injEq] at h
    rw [← h]
    rfl
  | cons a l ih =>
    intro r h
    simp only [optionMapM] at h
    cases hfa : f a with
    | none => rw [hfa] at h; exact absurd h (by simp)
    | some b =>
      rw [hfa] at h
      cases hrec : optionMapM f l with
      | none => rw [hrec] at h; exact absurd h (by simp)
      | some r' =>
        rw [hrec] at h
        simp only [Option.map_some', Option.some.injEq] at h
        rw [← h, List.map_cons, hfa, ih r' hrec]
        rfl

/-- The module symbol's FQN is always among a successful extraction's
FQNs. -/
theorem extractModule_fqn_mem (m : PyModule) (moduleFqn : String) (p : Option String)
    (syms : List Sym) (h : extractModule m moduleFqn p = some syms) :
    moduleFqn ∈ syms.map Sym.fqn := by
  obtain ⟨frs, -, hsyms⟩ := extractModule_cases m moduleFqn p syms h
  have hperm : syms.Perm (Sym.moduleS moduleFqn
      ⟨p.getD moduleFqn, m.pos.line, m.pos.column⟩ (getDocstring m.body) :: frs.flatten) := by
    rw [hsyms]
    exact sortByFqn_perm _
  rw [List.mem_map]
  exact ⟨Sym.moduleS moduleFqn ⟨p.getD moduleFqn, m.pos.line, m.pos.column⟩
      (getDocstring m.body),
    hperm.mem_iff.mpr (List.mem_cons_self _ _), rfl⟩

/-- Picking one key out of each block of a duplicate-free flattened list
yields duplicate-free keys. -/
theorem nodup_keys_of_flatten {M : Type} (k : M → String) (g : M → List String) :
    ∀ (mods : List M), (∀ pm ∈ mods, k pm ∈ g pm) →
      ((mods.map g).flatten).Nodup → (mods.map k).Nodup := by
  intro mods
  induction mods with
  | nil => intro _ _; exact List.nodup_nil
  | cons pm rest ih =>
    intro hmem hnd
    simp only [List.map_cons, List.flatten_cons] at hnd
    rw [List.nodup_append] at hnd
    obtain ⟨hnd1, hnd2, hdisj⟩ := hnd
    rw [List.map_cons, List.nodup_cons]
    constructor
    · intro hk
      rw [List.mem_map] at hk
      obtain ⟨pm', hpm', hkeq⟩ := hk
      have h1 : k pm ∈ g pm := hmem pm (List.mem_cons_self _ _)
      have h2 : k pm ∈ ((rest.map g).flatten) := by
        rw [List.mem_flatten]
        refine ⟨g pm', List.mem_map_of_mem g hpm', ?_⟩
        rw [← hkeq]
        exact hmem pm' (List.mem_cons_of_mem _ hpm')
      exact hdisj h1 h2
    · exact ih (fun q hq => hmem q (List.mem_cons_of_mem _ hq)) hnd2

/-- `link` preserves the FQN sequence. -/
theorem link_map_fqn (symbols : List Sym)
    (tables : List (String × List (String × String))) :
    (link symbols tables).map Sym.fqn = symbols.map Sym.fqn := by
  simp only [link, List.map_map]
  apply List.map_congr_left
  intro s _
  cases s <;> rfl

/-- `link` reads the table map only through `tablesGet`. -/
theorem link_tables_congr (symbols : List Sym)
    (t₁ t₂ : List (String × List (String × String)))
    (h : ∀ k, tablesGet t₁ k = tablesGet t₂ k) :
    link symbols t₁ = link symbols t₂ := by
  simp only [link]
  apply List.map_congr_left
  intro s _
  cases s with
  | classS f loc d de v dep bs bf e en pr =>
    dsimp only
    rw [h (dropLastSeg f)]
  | moduleS f loc d => rfl
  | functionS f loc ps r d de vv dep ia ow cm sm prp ra ov => rfl
  | constantS f loc ow t v vis dep => rfl
  | typeAliasS f loc t => rfl

theorem tablesGet_skip (k : String) :
    ∀ (t : List (String × List (String × String)))
      (acc : Option (List (String × String))),
      (∀ q ∈ t, q.1 ≠ k) →
      t.foldl (fun acc p => if p.1 = k then some p.2 else acc) acc = acc := by
  intro t
  induction t with
  | nil => intro acc _; rfl
  | cons p t' ih =>
    intro acc hq
    rw [List.foldl_cons]
    rw [if_neg (hq p (List.mem_cons_self _ _))]
    exact ih acc (fun q hqm => hq q (List.mem_cons_of_mem _ hqm))

/-- Under duplicate-free keys, a stored binding is what `tablesGet`
returns. -/
theorem tablesGet_mem (t : List (String × List (String × String)))
    (k : String) (v : List (String × String))
    (hnd : (t.map Prod.fst).Nodup) (hm : (k, v) ∈ t) :
    tablesGet t k = some v := by
  induction t with
  | nil => exact absurd hm (List.not_mem_nil _)
  | cons p t' ih =>
    rw [List.map_cons, List.nodup_cons] at hnd
    rcases List.mem_cons.mp hm with rfl | hm'
    · show (t'.foldl (fun acc q => if q.1 = k then some q.2 else acc)
          (if (k, v).1 = k then some (k, v).2 else none)) = some v
      rw [if_pos rfl]
      apply tablesGet_skip
      intro q hq heq
      apply hnd.1
      rw [show ((k, v).1 : String) = q.1 from heq.symm]
      exact List.mem_map_of_mem Prod.fst hq
    · show (t'.foldl (fun acc q => if q.1 = k then some q.2 else acc)
          (if p.1 = k then some p.2 else none)) = some v
      have hpk : p.1 ≠ k := by
        intro heq
        have : (k, v).1 ∈ t'.map Prod.fst := List.mem_map_of_mem Prod.fst hm'
        exact hnd.1 (heq ▸ this)
      rw [if_neg hpk]
      exact ih hnd.2 hm'

/-- `tablesGet` misses exactly when no binding with the key exists. -/
theorem tablesGet_not_mem (t : List (String × List (String × String))) (k : String)
    (hm : ∀ v, (k, v) ∉ t) : tablesGet t k = none := by
  apply tablesGet_skip
  intro q hq heq
  exact hm q.2 (by rw [← heq]; exact hq)

/-- `tablesGet` is invariant under permutation when keys are
duplicate-free. -/
theorem tablesGet_perm (t₁ t₂ : List (String × List (String × String)))
    (hp : t₁.Perm t₂) (hnd : (t₁.map Prod.fst).Nodup) :
    ∀ k, tablesGet t₁ k = tablesGet t₂ k := by
  intro k
  have hnd₂ : (t₂.map Prod.fst).Nodup := ((hp.map Prod.fst).nodup_iff).mp hnd
  cases h1 : tablesGet t₁ k with
  | some v =>
    have hm : (k, v) ∈ t₁ := by
      by_contra hnm
      rcases Classical.em (∃ w, (k, w) ∈ t₁) with ⟨w, hw⟩ | hno
      · rw [tablesGet_mem t₁ k w hnd hw] at h1
        have : w = v := Option.some.inj h1
        subst this
        exact hnm hw
      · rw [tablesGet_not_mem t₁ k (fun w hw => hno ⟨w, hw⟩)] at h1
        exact Option.noConfusion h1
    exact (tablesGet_mem t₂ k v hnd₂ (hp.mem_iff.mp hm)).symm
  | none =>
    have hno : ∀ v, (k, v) ∉ t₂ := by
      intro v hv
      rw [tablesGet_mem t₁ k v hnd (hp.mem_iff.mpr hv)] at h1
      exact Option.noConfusion h1
    exact (tablesGet_not_mem t₂ k hno).symm

theorem validateGo_nil_nodup (schemaOk : Sym → Bool) (fqnSet : List String) :
    ∀ (rest : List Sym) (seen : List String),
      (validateGo schemaOk fqnSet rest seen).2.1 = [] →
      ((rest.map Sym.fqn).Nodup ∧ ∀ s ∈ rest, s.fqn ∉ seen) := by
  intro rest
  induction rest with
  | nil => intro seen _; exact ⟨List.nodup_nil, fun s hs => absurd hs (List.not_mem_nil s)⟩
  | cons r rest' ih =>
    intro seen hnil
    by_cases hdup : seen.contains r.fqn
    · exfalso
      simp only [validateGo, hdup, if_true] at hnil
      exact List.cons_ne_nil _ _ hnil
    · have hdup' : seen.contains r.fqn = false := by simpa using hdup
      simp only [validateGo, hdup', Bool.false_eq_true, if_false] at hnil
      rcases List.append_eq_nil.mp hnil with ⟨-, hrec⟩
      obtain ⟨hnd', hseen'⟩ := ih (r.fqn :: seen) hrec
      refine ⟨?_, ?_⟩
      · rw [List.map_cons, List.nodup_cons]
        refine ⟨?_, hnd'⟩
        intro hmem
        rw [List.mem_map] at hmem
        obtain ⟨t, ht, hteq⟩ := hmem
        exact hseen' t ht (by rw [hteq]; exact List.mem_cons_self _ _)
      · intro s hs
        rcases List.mem_cons.mp hs with rfl | hs
        · intro hm
          exact hdup ((contains_iff_mem _ _).mpr hm)
        · intro hm
          exact hseen' s hs (List.mem_cons_of_mem _ hm)

/-- A successful validation implies pairwise-distinct FQNs. -/
theorem validate_ok_nodup (schemaOk : Sym → Bool) (symbols : List Sym)
    (out : ValidationOutput) (h : validate schemaOk symbols = .ok out) :
    (symbols.map Sym.fqn).Nodup := by
  have hnil : (validateGo schemaOk (symbols.map Sym.fqn) symbols []).2.1 = [] := by
    by_contra hne
    simp only [validate, if_pos hne] at h
    exact Except.noConfusion h
  exact (validateGo_nil_nodup schemaOk (symbols.map Sym.fqn) symbols [] hnil).1

theorem optionMapM_elem_some (f : α → Option β) :
    ∀ (l : List α) (r : List β), optionMapM f l = some r →
      ∀ a ∈ l, ∃ b, f a = some b := by
  intro l
  induction l with
  | nil => intro r _ a ha; exact absurd ha (List.not_mem_nil a)
  | cons x l ih =>
    intro r h a ha
    simp only [optionMapM] at h
    cases hfx : f x with
    | none => rw [hfx] at h; exact absurd h (by simp)
    | some b =>
      rw [hfx] at h
      cases hrec : optionMapM f l with
      | none => rw [hrec] at h; exact absurd h (by simp)
      | some r' =>
        rcases List.mem_cons.mp ha with rfl | ha
        · exact ⟨b, hfx⟩
        · exact ih r' hrec a ha

/-- The downstream pipeline stages give equal artifacts on any two
module orders: the merged symbol sequence is sorted by FQN, a successful
validation forces pairwise-distinct FQNs (which also makes the alias
table lookups order-independent), so the outputs coincide. -/
theorem pipelineFromMods_perm (schemaOk : Sym → Bool)
    (mods₁ mods₂ : List (String × String × PyModule)) (hp : mods₁.Perm mods₂)
    (a₁ a₂ : Artifacts)
    (h₁ : pipelineFromMods schemaOk mods₁ = .ok a₁)
    (h₂ : pipelineFromMods schemaOk mods₂ = .ok a₂) : a₁ = a₂ := by
  simp only [pipelineFromMods] at h₁ h₂
  cases hm₁ : optionMapM (fun pm => extractModule pm.2.2 pm.2.1 (some pm.1)) mods₁ with
  | none => rw [hm₁] at h₁; exact PipeResult.noConfusion h₁
  | some frags₁ =>
  cases hm₂ : optionMapM (fun pm => extractModule pm.2.2 pm.2.1 (some pm.1)) mods₂ with
  | none => rw [hm₂] at h₂; exact PipeResult.noConfusion h₂
  | some frags₂ =>
  simp only [hm₁] at h₁
  simp only [hm₂] at h₂
  cases hv₁ : validate schemaOk (link (sortByFqn frags₁.flatten)
      (buildImportTables (mods₁.map (fun pm => (pm.2.1, pm.2.2))))) with
  | error errs₁ => simp only [hv₁] at h₁; exact PipeResult.noConfusion h₁
  | ok out₁ =>
  cases hv₂ : validate schemaOk (link (sortByFqn frags₂.flatten)
      (buildImportTables (mods₂.map (fun pm => (pm.2.1, pm.2.2))))) with
  | error errs₂ => simp only [hv₂] at h₂; exact PipeResult.noConfusion h₂
  | ok out₂ =>
  simp only [hv₁] at h₁
  simp only [hv₂] at h₂
  have ha₁ : a₁ = ⟨out₁.objects, out₁.report, buildStore out₁.objects,
      symbolsJsonl out₁.objects⟩ := by
    cases h₁
    rfl
  have ha₂ : a₂ = ⟨out₂.objects, out₂.report, buildStore out₂.objects,
      symbolsJsonl out₂.objects⟩ := by
    cases h₂
    rfl
  have hfr₁ : frags₁ = mods₁.map (fun pm =>
      (extractModule pm.2.2 pm.2.1 (some pm.1)).getD []) :=
    optionMapM_some_eq_map _ mods₁ frags₁ hm₁
  have hfr₂ : frags₂ = mods₂.map (fun pm =>
      (extractModule pm.2.2 pm.2.1 (some pm.1)).getD []) :=
    optionMapM_some_eq_map _ mods₂ frags₂ hm₂
  have hflatperm : frags₁.flatten.Perm frags₂.flatten := by
    rw [hfr₁, hfr₂]
    exact (hp.map _).flatten
  have hsortperm : (sortByFqn frags₁.flatten).Perm (sortByFqn frags₂.flatten) :=
    ((sortByFqn_perm _).trans hflatperm).trans (sortByFqn_perm _).symm
  have hnodup₁ : ((sortByFqn frags₁.flatten).map Sym.fqn).Nodup := by
    have h := validate_ok_nodup schemaOk _ out₁ hv₁
    rw [link_map_fqn] at h
    exact h
  have hsymeq : sortByFqn frags₁.flatten = sortByFqn frags₂.flatten :=
    sorted_perm_eq_of_nodup_fqn _ _ hsortperm (sortByFqn_sorted _) (sortByFqn_sorted _)
      hnodup₁
  have hkeys : (mods₁.map (fun pm => pm.2.1)).Nodup := by
    apply nodup_keys_of_flatten (fun pm => pm.2.1)
      (fun pm => ((extractModule pm.2.2 pm.2.1 (some pm.1)).getD []).map Sym.fqn) mods₁
    · intro pm hpm
      obtain ⟨syms, hsyms⟩ := optionMapM_elem_some _ mods₁ frags₁ hm₁ pm hpm
      rw [hsyms]
      exact extractModule_fqn_mem pm.2.2 pm.2.1 (some pm.1) syms hsyms
    · have hmapeq : mods₁.map (fun pm =>
          ((extractModule pm.2.2 pm.2.1 (some pm.1)).getD []).map Sym.fqn)
          = (mods₁.map (fun pm =>
            (extractModule pm.2.2 pm.2.1 (some pm.1)).getD [])).map (List.map Sym.fqn) := by
        rw [List.map_map]
        rfl
      rw [hmapeq, ← List.map_flatten, ← hfr₁]
      have hpm2 : (frags₁.flatten.map Sym.fqn).Perm
          ((sortByFqn frags₁.flatten).map Sym.fqn) := ((sortByFqn_perm _).map _).symm
      exact (hpm2.nodup_iff).mpr hnodup₁
  have htabperm : (buildImportTables (mods₁.map (fun pm => (pm.2.1, pm.2.2)))).Perm
      (buildImportTables (mods₂.map (fun pm => (pm.2.1, pm.2.2)))) := by
    simp only [buildImportTables, List.map_map]
    exact hp.map _
  have htabkeys : ((buildImportTables (mods₁.map (fun pm => (pm.2.1, pm.2.2)))).map
      Prod.fst).Nodup := by
    simp only [buildImportTables, List.map_map]
    exact hkeys
  have htab := tablesGet_perm _ _ htabperm htabkeys
  have hlinked : link (sortByFqn frags₂.flatten)
        (buildImportTables (mods₂.map (fun pm => (pm.2.1, pm.2.2))))
      = link (sortByFqn frags₁.flatten)
        (buildImportTables (mods₁.map (fun pm => (pm.2.1, pm.2.2)))) := by
    rw [← hsymeq]
    exact (link_tables_congr _ _ _ htab).symm
  rw [hlinked] at hv₂
  have hout : out₁ = out₂ := Except.ok.inj (hv₁.symm.trans hv₂)
  rw [ha₁, ha₂, hout]

/-- Claim C8: the pipeline's successful output is independent of the order
in which the source files arrive (the order produced by the parallel
parse workers): if two runs over permutations of the same file list both
succeed, they return identical artifacts — the same validated symbol
list, report, index store, and JSONL emission.  Symbols are merged into
a list sorted by FQN, a successful validation forces the FQNs (and hence
the per-module alias-table keys) to be pairwise distinct, so every
downstream stage is permutation invariant. -/
theorem pipeline_determinism (pkg : String) (schemaOk : Sym → Bool)
    (files₁ files₂ : List SrcFile) (a₁ a₂ : Artifacts)
    (hp : files₁.Perm files₂)
    (h₁ : runPipeline pkg schemaOk files₁ = .ok a₁)
    (h₂ : runPipeline pkg schemaOk files₂ = .ok a₂) : a₁ = a₂ := by
  simp only [runPipeline] at h₁ h₂
  by_cases hc₁ : collectedParseErrors files₁ = []
  · have hc₂ : collectedParseErrors files₂ = [] := by
      have hperm : (collectedParseErrors files₁).Perm (collectedParseErrors files₂) :=
        hp.filterMap _
      rw [hc₁] at hperm
      exact hperm.symm.eq_nil
    rw [if_neg (not_not_intro hc₁)] at h₁
    rw [if_neg (not_not_intro hc₂)] at h₂
    exact pipelineFromMods_perm schemaOk _ _ (hp.filterMap _) a₁ a₂ h₁ h₂
  · rw [if_pos hc₁] at h₁
    exact PipeResult.noConfusion h₁

theorem pipeline_determinism_witness :
    runPipeline "pkg" (fun _ => true)
        [⟨"root/a.py", ["a"], .ok ⟨[], ⟨1, 0⟩⟩⟩, ⟨"root/b.py", ["b"], .ok ⟨[], ⟨1, 0⟩⟩⟩]
      = runPipeline "pkg" (fun _ => true)
        [⟨"root/b.py", ["b"], .ok ⟨[], ⟨1, 0⟩⟩⟩, ⟨"root/a.py", ["a"], .ok ⟨[], ⟨1, 0⟩⟩⟩] := by
  have hp : ([⟨"root/a.py", ["a"], .ok ⟨[], ⟨1, 0⟩⟩⟩,
        ⟨"root/b.py", ["b"], .ok ⟨[], ⟨1, 0⟩⟩⟩] : List SrcFile).Perm
      [⟨"root/b.py", ["b"], .ok ⟨[], ⟨1, 0⟩⟩⟩, ⟨"root/a.py", ["a"], .ok ⟨[], ⟨1, 0⟩⟩⟩] :=
    List.Perm.swap _ _ []
  have h₁ : ∃ a, runPipeline "pkg" (fun _ => true)
      [⟨"root/a.py", ["a"], .ok ⟨[], ⟨1, 0⟩⟩⟩, ⟨"root/b.py", ["b"], .ok ⟨[], ⟨1, 0⟩⟩⟩]
      = PipeResult.ok a := ⟨_, rfl⟩
  have h₂ : ∃ a, runPipeline "pkg" (fun _ => true)
      [⟨"root/b.py", ["b"], .ok ⟨[], ⟨1, 0⟩⟩⟩, ⟨"root/a.py", ["a"], .ok ⟨[], ⟨1, 0⟩⟩⟩]
      = PipeResult.ok a := ⟨_, rfl⟩
  obtain ⟨a₁, h₁⟩ := h₁
  obtain ⟨a₂, h₂⟩ := h₂
  rw [h₁, h₂, pipeline_determinism "pkg" (fun _ => true) _ _ a₁ a₂ hp h₁ h₂]

end Apictx
